import Mathlib

/-!
Shallow embedding of the split-criteria module (`criteria.py`) of the
decision-tree dissertation code, together with proofs settling the frozen
claims about it.

Conventions of the embedding:

* Python floats are modelled by exact rationals `ℚ`; `float('-inf')` is the
  bottom element of `WithBot ℚ` and `float('+inf')` the top of `WithTop ℚ`.
* Numpy integer arrays become functions `ℕ → ℕ` (or lists), numpy float
  matrices become functions `ℕ → ℕ → ℚ`.
* Python `set`s of small non-negative integers iterate in ascending order;
  they are embedded as sorted duplicate-free lists or as `Finset ℕ`.
* External linear-algebra subroutines (the SDP solver, the pivoted Cholesky
  factorisation, `numpy`/`scipy` pseudo-inverse and `chi2.cdf`, `numpy.linalg.eigh`)
  are black boxes for the source module; they enter the embedding as explicit
  oracle parameters.
* Fallible code paths are modelled by explicit outcome types; loops without a
  structural bound are modelled with an explicit fuel parameter.
-/

namespace Criteria

/-- Minimum gain allowed for Local Search methods to continue searching
(`EPSILON = 0.000001` in the source). -/
def EPSILON : ℚ := 1 / 1000000

/-- Maximum contingency-table size before the Conditional Inference Tree
framework switches mode (`BIG_CONTINGENCY_TABLE_THRESHOLD = 200`). -/
def BIG_CONTINGENCY_TABLE_THRESHOLD : ℕ := 200

/-- The `Split` named tuple: `(attrib_index, splits_values, criterion_value)`,
defaulting to `(None, [], float('-inf'))`.  Nominal attribute values `v` appear
in `splits_values` as `some (v : ℚ)`; the numeric code path stores
`{best_last_left_value}` / `{best_first_right_value}`, which may be `None`. -/
structure Split where
  attrib_index : Option ℕ := none
  splits_values : List (Finset (Option ℚ)) := []
  criterion_value : WithBot ℚ := ⊥

/-- `max(best_splits_per_attrib, key=lambda split: split.criterion_value)` for a
non-empty list, `Split()` otherwise: Python's `max` keeps the earliest maximal
element, so later elements replace the accumulator only on strict increase. -/
def max_by_criterion : List Split → Split
  | [] => {}
  | s :: rest =>
    rest.foldl (fun acc x => if acc.criterion_value < x.criterion_value then x else acc) s

/-- `min(best_splits_per_attrib, key=...)` (PC-ext), earliest minimal element. -/
def min_by_criterion : List Split → Split
  | [] => {}
  | s :: rest =>
    rest.foldl (fun acc x => if x.criterion_value < acc.criterion_value then x else acc) s

/-- Per-attribute contingency data held by a tree node, plus the numpy shape of
the contingency matrix. -/
structure ContingencyTableInfo where
  contingency_table : ℕ → ℕ → ℕ
  values_num_samples : ℕ → ℕ
  num_values : ℕ
  num_classes : ℕ

/-- The slice of `Dataset` read by the criteria module. -/
structure Dataset where
  samples : ℕ → ℕ → ℚ
  sample_class : ℕ → ℕ
  num_classes : ℕ

/-- The slice of `TreeNode` read by the criteria module. -/
structure TreeNode where
  valid_samples_indices : List ℕ
  valid_nominal_attribute : List Bool
  valid_numeric_attribute : List Bool
  contingency_tables : ℕ → ContingencyTableInfo
  class_index_num_samples : List ℕ
  dataset : Dataset

namespace Twoing

/-- Recursive worker of `_get_non_empty_class_indices`: scan
`class_index_num_samples`, returning the first two indices with a positive
count (the loop `break`s at the second hit). -/
def get_non_empty_go : ℕ → List ℕ → Option ℕ → Option ℕ × Option ℕ
  | _, [], first => (first, none)
  | i, c :: rest, first =>
    if 0 < c then
      match first with
      | none => get_non_empty_go (i + 1) rest (some i)
      | some f => (some f, some i)
    else get_non_empty_go (i + 1) rest first

/-- `_get_non_empty_class_indices(class_index_num_samples)`. -/
def get_non_empty_class_indices (cns : List ℕ) : Option ℕ × Option ℕ :=
  get_non_empty_go 0 cns none

/-- `_get_values_seen(values_num_samples)`: indices of the values with at least
one sample, in ascending order (Python small-int set iteration order). -/
def get_values_seen (num_values : ℕ) (vns : ℕ → ℕ) : List ℕ :=
  (List.range num_values).filter fun v => 0 < vns v

/-- The sort key order of `value_number_ratio.sort(key=lambda tup: tup[2])`. -/
def ratioLe (a b : ℕ × ℕ × ℚ) : Prop := a.2.2 ≤ b.2.2

instance : DecidableRel ratioLe := fun a b => inferInstanceAs (Decidable (a.2.2 ≤ b.2.2))

instance : IsTotal (ℕ × ℕ × ℚ) ratioLe := ⟨fun a b => le_total a.2.2 b.2.2⟩

instance : IsTrans (ℕ × ℕ × ℚ) ratioLe := ⟨fun _ _ _ h h' => le_trans h h'⟩

/-- `_calculate_value_class_ratio`: one `(value, number_on_second_class,
ratio_on_second_class)` triple per seen value, sorted by ratio. -/
def value_number_ratio (values_seen : List ℕ) (vns : ℕ → ℕ) (ct : ℕ → ℕ → ℕ)
    (second : ℕ) : List (ℕ × ℕ × ℚ) :=
  List.insertionSort ratioLe
    (values_seen.map fun v => (v, ct v second, (ct v second : ℚ) / (vns v : ℚ)))

/-- The inner `_calculate_children_gini_index` of `_two_class_trick`, including
its `num_left_samples != 0` / `num_right_samples != 0` guards (an empty side
gets the placeholder impurity `1.0`).  The integer counts of the sweep are cast
to `ℚ` at the call site, mirroring Python's true division on ints. -/
def two_class_trick_children_gini (nlf nls nrf nrs nl nr : ℚ) : ℚ :=
  let left_gini : ℚ :=
    if nl ≠ 0 then 1 - (nlf / nl) ^ 2 - (nls / nl) ^ 2 else 1
  let right_gini : ℚ :=
    if nr ≠ 0 then 1 - (nrf / nr) ^ 2 - (nrs / nr) ^ 2 else 1
  (nl * left_gini + nr * right_gini) / (nl + nr)

/-- Running state of the incremental sweep inside `_two_class_trick`. -/
structure SweepState where
  num_left_first : ℤ
  num_left_second : ℤ
  num_left_samples : ℤ
  num_right_first : ℤ
  num_right_second : ℤ
  num_right_samples : ℤ
  best_gain : WithBot ℚ
  best_idx : ℕ
  idx : ℕ

/-- One iteration of the `for last_left_index, ... in enumerate(value_number_ratio[:-1])`
loop of `_two_class_trick`. -/
def sweep_step (orig : ℚ) (vns : ℕ → ℕ) (st : SweepState) (p : ℕ × ℕ × ℚ) : SweepState :=
  let n_v : ℤ := (vns p.1 : ℤ)
  let s_v : ℤ := (p.2.1 : ℤ)
  let f_v : ℤ := n_v - s_v
  let nl := st.num_left_samples + n_v
  let nlf := st.num_left_first + f_v
  let nls := st.num_left_second + s_v
  let nr := st.num_right_samples - n_v
  let nrf := st.num_right_first - f_v
  let nrs := st.num_right_second - s_v
  let gain : ℚ :=
    orig - two_class_trick_children_gini (nlf : ℚ) (nls : ℚ) (nrf : ℚ) (nrs : ℚ) (nl : ℚ) (nr : ℚ)
  if st.best_gain < (gain : WithBot ℚ) then
    ⟨nlf, nls, nl, nrf, nrs, nr, (gain : WithBot ℚ), st.idx, st.idx + 1⟩
  else
    ⟨nlf, nls, nl, nrf, nrs, nr, st.best_gain, st.best_idx, st.idx + 1⟩

/-- `_two_class_trick(original_gini, class_index_num_samples, values_seen,
values_num_samples, contingency_table, num_total_valid_samples)`.
Returns `(best_split_total_gini_gain, set_left_values, set_right_values)`. -/
def two_class_trick (original_gini : ℚ) (cns : List ℕ) (values_seen : List ℕ)
    (vns : ℕ → ℕ) (ct : ℕ → ℕ → ℕ) (N : ℕ) : WithBot ℚ × Finset ℕ × Finset ℕ :=
  match get_non_empty_class_indices cns with
  | (some first, some second) =>
    let vnr := value_number_ratio values_seen vns ct second
    let init : SweepState :=
      ⟨0, 0, 0, (cns.getD first 0 : ℤ), (cns.getD second 0 : ℤ), (N : ℤ), ⊥, 0, 0⟩
    let fin := vnr.dropLast.foldl (sweep_step original_gini vns) init
    let set_left := ((vnr.take (fin.best_idx + 1)).map fun p => p.1).toFinset
    let set_right := values_seen.toFinset \ set_left
    (fin.best_gain, set_left, set_right)
  | _ => (⊥, {0}, ∅)

/-- `_calculate_gini_index(side_num, class_num_side)`; classes with a
non-positive count are skipped. -/
def calculate_gini_index (side_num : ℕ) (class_num_side : List ℕ) : ℚ :=
  class_num_side.foldl
    (fun g c => if 0 < c then g - ((c : ℚ) / (side_num : ℚ)) ^ 2 else g) 1

/-- `itertools.combinations(l, k)` for a list, in the same (position-lexicographic)
emission order. -/
def combinationsList : ℕ → List ℕ → List (List ℕ)
  | 0, _ => [[]]
  | _ + 1, [] => []
  | k + 1, x :: xs => (combinationsList k xs).map (x :: ·) ++ combinationsList (k + 1) xs

/-- `_generate_twoing(class_index_num_samples)`: all superclass bipartitions
`(set_left_classes, set_right_classes)` of the non-empty classes, the left side
ranging over subsets of size `1 .. n // 2`, both sides non-empty. -/
def generate_twoing (cns : List ℕ) : List (Finset ℕ × Finset ℕ) :=
  let non_empty := (List.range cns.length).filter fun c => 0 < cns.getD c 0
  let n := non_empty.length
  (((List.range' 1 (n / 2)).flatMap fun k => combinationsList k non_empty).map
      fun l => (l.toFinset, non_empty.toFinset \ l.toFinset)).filter
    fun p => p.1.Nonempty ∧ p.2.Nonempty

/-- The 2-column matrix part of `_get_twoing_contingency_table`; rows of values
without samples stay zero. -/
def twoing_ct (ct : ℕ → ℕ → ℕ) (vns : ℕ → ℕ) (setL setR : Finset ℕ) : ℕ → ℕ → ℕ :=
  fun v j =>
    if vns v = 0 then 0
    else if j = 0 then setL.sum (ct v)
    else if j = 1 then setR.sum (ct v)
    else 0

/-- The `superclass_index_num_samples` part of `_get_twoing_contingency_table`. -/
def twoing_superclass_nums (ct : ℕ → ℕ → ℕ) (vns : ℕ → ℕ) (num_values : ℕ)
    (setL setR : Finset ℕ) : List ℕ :=
  [(((List.range num_values).filter fun v => ¬vns v = 0).map fun v => setL.sum (ct v)).sum,
   (((List.range num_values).filter fun v => ¬vns v = 0).map fun v => setR.sum (ct v)).sum]

/-- `_get_twoing_value(class_num_left, class_num_right, num_left_samples,
num_right_samples)`: the Twoing criterion value of a split aggregate. -/
def get_twoing_value (class_num_left class_num_right : List ℕ) (nl nr : ℕ) : ℚ :=
  let sum_dif : ℚ := (class_num_left.zip class_num_right).foldl
    (fun acc p =>
      if p.1 + p.2 = 0 then acc
      else acc + |(p.1 : ℚ) / (nl : ℚ) - (p.2 : ℚ) / (nr : ℚ)|) 0
  let num_total : ℚ := (nl : ℚ) + (nr : ℚ)
  ((nl : ℚ) / num_total * ((nr : ℚ) / num_total) / 4) * sum_dif ^ 2

/-- `_get_numeric_values_seen(valid_samples_indices, sample, sample_class,
attrib_index)`. -/
def get_numeric_values_seen (valid_samples_indices : List ℕ) (samples : ℕ → ℕ → ℚ)
    (sample_class : ℕ → ℕ) (attrib : ℕ) : List (ℚ × ℕ) :=
  valid_samples_indices.map fun i => (samples i attrib, sample_class i)

/-- Lexicographic order on `(value, class)` pairs: `values_and_classes.sort()`. -/
def pairLe (a b : ℚ × ℕ) : Prop := a.1 < b.1 ∨ (a.1 = b.1 ∧ a.2 ≤ b.2)

instance : DecidableRel pairLe := fun a b =>
  inferInstanceAs (Decidable (a.1 < b.1 ∨ (a.1 = b.1 ∧ a.2 ≤ b.2)))

instance : IsTotal (ℚ × ℕ) pairLe := by
  constructor
  intro a b
  rcases lt_trichotomy a.1 b.1 with h | h | h
  · exact Or.inl (Or.inl h)
  · rcases le_total a.2 b.2 with h2 | h2
    · exact Or.inl (Or.inr ⟨h, h2⟩)
    · exact Or.inr (Or.inr ⟨h.symm, h2⟩)
  · exact Or.inr (Or.inl h)

instance : IsTrans (ℚ × ℕ) pairLe := by
  constructor
  rintro a b c (h | ⟨h, h2⟩) (h' | ⟨h', h2'⟩)
  · exact Or.inl (h.trans h')
  · exact Or.inl (h'.symm ▸ h)
  · exact Or.inl (h ▸ h')
  · exact Or.inr ⟨h.trans h', h2.trans h2'⟩

/-- Incrementing a class-count list in place (`class_num[c] += 1` etc.). -/
def bump (l : List ℕ) (c : ℕ) (d : ℤ) : List ℕ :=
  l.set c (((l.getD c 0 : ℤ) + d).toNat)

/-- Running state of the boundary scan in `_twoing_for_numeric`. -/
structure NumericSweepState where
  last_left_value : ℚ
  num_left : ℕ
  num_right : ℕ
  class_num_left : List ℕ
  class_num_right : List ℕ
  best : WithBot ℚ
  best_last_left : Option ℚ
  best_first_right : Option ℚ

/-- One iteration of the `for first_right_index in range(1, len(...))` loop of
`_twoing_for_numeric`.  A boundary is evaluated only when the incoming value
differs from `last_left_value`. -/
def twoing_for_numeric_step (st : NumericSweepState) (p : ℚ × ℕ) : NumericSweepState :=
  let st1 :=
    if p.1 ≠ st.last_left_value then
      let tv : ℚ := get_twoing_value st.class_num_left st.class_num_right st.num_left st.num_right
      let st' :=
        if st.best < (tv : WithBot ℚ) then
          { st with best := (tv : WithBot ℚ), best_last_left := some st.last_left_value,
                    best_first_right := some p.1 }
        else st
      { st' with last_left_value := p.1 }
    else st
  { st1 with num_left := st1.num_left + 1, num_right := st1.num_right - 1,
             class_num_left := bump st1.class_num_left p.2 1,
             class_num_right := bump st1.class_num_right p.2 (-1) }

/-- `_twoing_for_numeric(sorted_values_and_classes, num_classes)`.  The source
indexes `sorted_values_and_classes[0]` unconditionally, so it is only defined on
non-empty input; the `[]` case is a junk value never used by any theorem. -/
def twoing_for_numeric (svc : List (ℚ × ℕ)) (num_classes : ℕ) :
    WithBot ℚ × Option ℚ × Option ℚ :=
  match svc with
  | [] => (⊥, none, none)
  | p0 :: rest =>
    let zeros : List ℕ := List.replicate num_classes 0
    let init : NumericSweepState :=
      { last_left_value := p0.1, num_left := 1, num_right := rest.length,
        class_num_left := zeros.set p0.2 1,
        class_num_right := rest.foldl (fun acc p => bump acc p.2 1) zeros,
        best := ⊥, best_last_left := none, best_first_right := none }
    let fin := rest.foldl twoing_for_numeric_step init
    (fin.best, fin.best_last_left, fin.best_first_right)

/-- Adding one contingency-table row into a running class-count list
(`class_num_left += contingency_table[value, :]`). -/
def add_row (acc : List ℕ) (row : ℕ → ℕ) : List ℕ :=
  acc.enum.map fun p => p.2 + row p.1

/-- The nominal-attribute body of `Twoing.select_best_attribute_and_split`:
enumerate all superclass bipartitions, run the two-class trick on each, keep
the best left/right value sets, then rescore them with the Twoing value. -/
def twoing_nominal_split (t : TreeNode) (a : ℕ) : Split :=
  let cti := t.contingency_tables a
  let values_seen := get_values_seen cti.num_values cti.values_num_samples
  let best := (generate_twoing t.class_index_num_samples).foldl
    (fun (acc : WithBot ℚ × Finset ℕ × Finset ℕ) p =>
      let tct := twoing_ct cti.contingency_table cti.values_num_samples p.1 p.2
      let scn := twoing_superclass_nums cti.contingency_table cti.values_num_samples
        cti.num_values p.1 p.2
      let orig := calculate_gini_index t.valid_samples_indices.length scn
      let r := two_class_trick orig scn values_seen cti.values_num_samples tct
        t.valid_samples_indices.length
      if acc.1 < r.1 then r else acc)
    (⊥, ∅, ∅)
  let agg := (List.range cti.num_values).foldl
    (fun (acc : List ℕ × List ℕ × ℕ × ℕ) v =>
      if v ∈ best.2.1 then
        (add_row acc.1 (cti.contingency_table v), acc.2.1,
         acc.2.2.1 + cti.values_num_samples v, acc.2.2.2)
      else
        (acc.1, add_row acc.2.1 (cti.contingency_table v),
         acc.2.2.1, acc.2.2.2 + cti.values_num_samples v))
    (List.replicate cti.num_classes 0, List.replicate cti.num_classes 0, 0, 0)
  let tv := get_twoing_value agg.1 agg.2.1 agg.2.2.1 agg.2.2.2
  { attrib_index := some a,
    splits_values := [best.2.1.image fun v => some ((v : ℕ) : ℚ),
                      best.2.2.image fun v => some ((v : ℕ) : ℚ)],
    criterion_value := (tv : WithBot ℚ) }

/-- The numeric-attribute body of `Twoing.select_best_attribute_and_split`. -/
def twoing_numeric_split (t : TreeNode) (a : ℕ) : Split :=
  let vc := get_numeric_values_seen t.valid_samples_indices t.dataset.samples
    t.dataset.sample_class a
  let svc := List.insertionSort pairLe vc
  let r := twoing_for_numeric svc t.dataset.num_classes
  { attrib_index := some a,
    splits_values := [{r.2.1}, {r.2.2}],
    criterion_value := r.1 }

/-- The `best_splits_per_attrib` list built by
`Twoing.select_best_attribute_and_split`: one `Split` per valid attribute,
nominal attributes taking precedence over numeric ones. -/
def best_splits_per_attrib (t : TreeNode) : List Split :=
  (t.valid_nominal_attribute.zip t.valid_numeric_attribute).enum.filterMap fun x =>
    match x with
    | (a, (true, _)) => some (twoing_nominal_split t a)
    | (a, (false, true)) => some (twoing_numeric_split t a)
    | (_, (false, false)) => none

/-- `Twoing.select_best_attribute_and_split(tree_node)`. -/
def select_best_attribute_and_split (t : TreeNode) : Split :=
  max_by_criterion (best_splits_per_attrib t)

/-- Total number of samples of a slice of `value_number_ratio` (as an integer,
the type the sweep counters live in). -/
def aggN (vns : ℕ → ℕ) (l : List (ℕ × ℕ × ℚ)) : ℤ :=
  (l.map fun p => (vns p.1 : ℤ)).sum

/-- Number of second-superclass samples of a slice of `value_number_ratio`. -/
def aggS (l : List (ℕ × ℕ × ℚ)) : ℤ :=
  (l.map fun p => (p.2.1 : ℤ)).sum

/-- The Gini gain the sweep of `_two_class_trick` assigns to the prefix whose
triples are `l`, when the full table has `Sf`/`Ss` samples in the two
superclasses and `Nt` samples in total. -/
def gainOf (orig : ℚ) (vns : ℕ → ℕ) (Sf Ss Nt : ℤ) (l : List (ℕ × ℕ × ℚ)) : ℚ :=
  orig - two_class_trick_children_gini
    ((aggN vns l - aggS l : ℤ) : ℚ) ((aggS l : ℤ) : ℚ)
    ((Sf - (aggN vns l - aggS l) : ℤ) : ℚ) ((Ss - aggS l : ℤ) : ℚ)
    ((aggN vns l : ℤ) : ℚ) ((Nt - aggN vns l : ℤ) : ℚ)

/-- The sweep state reached after processing the slice `done`, with current
best gain `b` found at index `bi`. -/
def stateOf (vns : ℕ → ℕ) (Sf Ss Nt : ℤ) (done : List (ℕ × ℕ × ℚ))
    (b : WithBot ℚ) (bi : ℕ) : SweepState :=
  ⟨aggN vns done - aggS done, aggS done, aggN vns done,
   Sf - (aggN vns done - aggS done), Ss - aggS done, Nt - aggN vns done,
   b, bi, done.length⟩

/-- The best-gain/best-index recursion extracted from the sweep. -/
def runBest (orig : ℚ) (vns : ℕ → ℕ) (Sf Ss Nt : ℤ) :
    List (ℕ × ℕ × ℚ) → List (ℕ × ℕ × ℚ) → WithBot ℚ → ℕ → WithBot ℚ × ℕ
  | _, [], b, bi => (b, bi)
  | done, p :: rest, b, bi =>
    let g : ℚ := gainOf orig vns Sf Ss Nt (done ++ [p])
    if b < (g : WithBot ℚ) then
      runBest orig vns Sf Ss Nt (done ++ [p]) rest (g : WithBot ℚ) done.length
    else
      runBest orig vns Sf Ss Nt (done ++ [p]) rest b bi

/-! The optimality argument for the two-class trick works over an abstract list
`ys` of per-value pairs `(nᵢ, sᵢ)`: total samples and second-superclass samples
of the `i`-th value in ratio-sorted order. -/

/-- Sum of the per-value sample counts over a set of positions. -/
def posSumN (ys : List (ℚ × ℚ)) (I : Finset (Fin ys.length)) : ℚ :=
  ∑ i ∈ I, (ys.get i).1

/-- Sum of the per-value second-superclass counts over a set of positions. -/
def posSumS (ys : List (ℚ × ℚ)) (I : Finset (Fin ys.length)) : ℚ :=
  ∑ i ∈ I, (ys.get i).2

/-- Total number of samples. -/
def NtOf (ys : List (ℚ × ℚ)) : ℚ := posSumN ys Finset.univ

/-- Total number of second-superclass samples. -/
def StOf (ys : List (ℚ × ℚ)) : ℚ := posSumS ys Finset.univ

/-- Centered per-value score `dᵢ = Nt·sᵢ − St·nᵢ`; the candidate objective of a
subset depends on that subset only through `∑ nᵢ` and `∑ dᵢ`. -/
def dOf (ys : List (ℚ × ℚ)) (i : Fin ys.length) : ℚ :=
  NtOf ys * (ys.get i).2 - StOf ys * (ys.get i).1

/-- The first `k` positions of the sorted order, as a set of positions. -/
def below (ys : List (ℚ × ℚ)) (k : ℕ) : Finset (Fin ys.length) :=
  Finset.univ.filter fun i => (i : ℕ) < k

/-- Sample count of the `k`-element prefix. -/
def tP (ys : List (ℚ × ℚ)) (k : ℕ) : ℚ := posSumN ys (below ys k)

/-- Second-superclass count of the `k`-element prefix. -/
def SP (ys : List (ℚ × ℚ)) (k : ℕ) : ℚ := posSumS ys (below ys k)

/-- Centered score of the `k`-element prefix. -/
def DP (ys : List (ℚ × ℚ)) (k : ℕ) : ℚ := ∑ i ∈ below ys k, dOf ys i

/-- Weighted children Gini impurity of the bipartition whose left side has
aggregate `(n, s)`, out of totals `(Nt, St)`, in the exact form used by the
sweep of `_two_class_trick`. -/
def childAgg (Nt St n s : ℚ) : ℚ :=
  two_class_trick_children_gini (n - s) s ((Nt - St) - (n - s)) (St - s) n (Nt - n)

/-- The equivalent maximization objective: `(Nt·s − St·n)² / (n·(Nt−n))`. -/
def Jfun (Nt St n s : ℚ) : ℚ := (Nt * s - St * n) ^ 2 / (n * (Nt - n))

/-- Brute-force claim-side objective: the Gini gain of the bipartition `(L, R)`
of the non-empty values, computed from the two superclass columns of the
contingency table. -/
def split_gini_gain (orig : ℚ) (vns : ℕ → ℕ) (ct : ℕ → ℕ → ℕ) (c1 c2 : ℕ)
    (L R : Finset ℕ) : ℚ :=
  orig - two_class_trick_children_gini
    (∑ v ∈ L, (ct v c1 : ℚ)) (∑ v ∈ L, (ct v c2 : ℚ))
    (∑ v ∈ R, (ct v c1 : ℚ)) (∑ v ∈ R, (ct v c2 : ℚ))
    (∑ v ∈ L, (vns v : ℚ)) (∑ v ∈ R, (vns v : ℚ))


/-- Class counts of a run of `(value, class)` pairs, accumulated the way the
numeric scan does (`class_num[c] += 1` per pair). -/
def countsFold (nc : ℕ) (l : List (ℚ × ℕ)) : List ℕ :=
  l.foldl (fun acc p => bump acc p.2 1) (List.replicate nc 0)

/-- The Twoing value the numeric scan computes at cut position `k` (first `k`
pairs left, the rest right). -/
def scoreAt (nc : ℕ) (svc : List (ℚ × ℕ)) (k : ℕ) : ℚ :=
  get_twoing_value (countsFold nc (svc.take k)) (countsFold nc (svc.drop k)) k
    (svc.length - k)

/-- The scan state of `_twoing_for_numeric` after the first `k` pairs, with
best-so-far data `b`. -/
def numStateOf (nc : ℕ) (svc : List (ℚ × ℕ)) (k : ℕ)
    (b : WithBot ℚ × Option ℚ × Option ℚ) : NumericSweepState :=
  { last_left_value := (svc.getD (k - 1) (0, 0)).1,
    num_left := k,
    num_right := svc.length - k,
    class_num_left := countsFold nc (svc.take k),
    class_num_right := countsFold nc (svc.drop k),
    best := b.1, best_last_left := b.2.1, best_first_right := b.2.2 }

/-- Best-tracking part of the numeric scan: positions `k, k+1, ...` over the
remaining pairs, updating only at positions whose value differs from the
previous one. -/
def runBdy (nc : ℕ) (svc : List (ℚ × ℕ)) :
    List (ℚ × ℕ) → ℕ → WithBot ℚ × Option ℚ × Option ℚ → WithBot ℚ × Option ℚ × Option ℚ
  | [], _, acc => acc
  | p :: rest, k, acc =>
    runBdy nc svc rest (k + 1)
      (if p.1 ≠ (svc.getD (k - 1) (0, 0)).1 then
        if acc.1 < ((scoreAt nc svc k : ℚ) : WithBot ℚ) then
          (((scoreAt nc svc k : ℚ) : WithBot ℚ), some (svc.getD (k - 1) (0, 0)).1, some p.1)
        else acc
      else acc)


/-- Contingency table `[[10, 0], [0, 10]]`: value 0 is pure class 0, value 1
is pure class 1. -/
def ct9 : ℕ → ℕ → ℕ := fun v c => if v = c ∧ v ≤ 1 then 10 else 0

/-- Ten samples on each of the two values. -/
def vns9 : ℕ → ℕ := fun v => if v ≤ 1 then 10 else 0

/-- The node of the spec's end-to-end example: one valid binary nominal
attribute with contingency table `[[10, 0], [0, 10]]`, 20 valid samples, two
classes of 10 samples each. -/
def node9 : TreeNode :=
  { valid_samples_indices := List.range 20,
    valid_nominal_attribute := [true],
    valid_numeric_attribute := [false],
    contingency_tables := fun _ => ⟨ct9, vns9, 2, 2⟩,
    class_index_num_samples := [10, 10],
    dataset := ⟨fun _ _ => 0, fun _ => 0, 2⟩ }

end Twoing

namespace LSSquaredGini

/-- `_split_gain_for_single_switch(curr_gain, left, right, value, weights)`:
bookkeeping of the new cut value when `value` changes sides. -/
def split_gain_for_single_switch (curr_gain : ℚ) (L R : Finset ℕ) (v : ℕ)
    (w : ℕ → ℕ → ℚ) : ℚ :=
  if v ∈ L then curr_gain + (∑ x ∈ L.erase v, w x v) - ∑ x ∈ R, w x v
  else curr_gain - (∑ x ∈ L, w x v) + ∑ x ∈ R.erase v, w x v

/-- `_split_gain_for_double_switch(curr_gain, left, right, (v1, v2), weights)`. -/
def split_gain_for_double_switch (curr_gain : ℚ) (L R : Finset ℕ) (v1 v2 : ℕ)
    (w : ℕ → ℕ → ℚ) : ℚ :=
  if v1 ∈ L then
    curr_gain + (∑ x ∈ L.erase v1, (w x v1 - w x v2)) +
      ∑ x ∈ R.erase v2, (w x v2 - w x v1)
  else
    curr_gain + (∑ x ∈ L.erase v2, (w x v2 - w x v1)) +
      ∑ x ∈ R.erase v1, (w x v1 - w x v2)

/-- The `for value in values_seen` pass of `_switch_while_increase`: first
single switch improving the cut by at least `EPSILON` wins. -/
def single_scan (w : ℕ → ℕ → ℚ) (cur : ℚ) (L R : Finset ℕ) :
    List ℕ → Option (ℚ × Finset ℕ × Finset ℕ)
  | [] => none
  | v :: rest =>
    let ng := split_gain_for_single_switch cur L R v w
    if EPSILON ≤ ng - cur then
      some (ng, if v ∈ L then (L.erase v, insert v R) else (insert v L, R.erase v))
    else single_scan w cur L R rest

/-- `itertools.combinations(values_seen, 2)` over the iteration order of the
set of small ints (ascending). -/
def combinationsPairs : List ℕ → List (ℕ × ℕ)
  | [] => []
  | x :: xs => (xs.map fun y => (x, y)) ++ combinationsPairs xs

/-- The `for value1, value2 in itertools.combinations(values_seen, 2)` pass of
`_switch_while_increase`: same-side pairs are skipped, the first opposite-side
swap improving the cut by at least `EPSILON` wins. -/
def double_scan (w : ℕ → ℕ → ℚ) (cur : ℚ) (L R : Finset ℕ) :
    List (ℕ × ℕ) → Option (ℚ × Finset ℕ × Finset ℕ)
  | [] => none
  | (v1, v2) :: rest =>
    if (v1 ∈ L ∧ v2 ∈ L) ∨ (v1 ∈ R ∧ v2 ∈ R) then double_scan w cur L R rest
    else
      let ng := split_gain_for_double_switch cur L R v1 v2 w
      if EPSILON ≤ ng - cur then
        some (ng, if v1 ∈ L then (insert v2 (L.erase v1), insert v1 (R.erase v2))
                  else (insert v1 (L.erase v2), insert v2 (R.erase v1)))
      else double_scan w cur L R rest

/-- One `while found_improvement` iteration of `_switch_while_increase`:
the single-switch pass, then the pair pass; `none` means no improving move
(the loop exits). -/
def ls_iter (w : ℕ → ℕ → ℚ) (vs : List ℕ) (cur : ℚ) (L R : Finset ℕ) :
    Option (ℚ × Finset ℕ × Finset ℕ) :=
  match single_scan w cur L R vs with
  | some r => some r
  | none => double_scan w cur L R (combinationsPairs vs)

/-- The `while found_improvement` loop of `_switch_while_increase`, with an
explicit iteration budget: `none` means the budget ran out before the loop
exited. -/
def switch_loop (w : ℕ → ℕ → ℚ) (vs : List ℕ) :
    ℕ → ℚ → Finset ℕ → Finset ℕ → Option (ℚ × Finset ℕ × Finset ℕ)
  | 0, _, _, _ => none
  | fuel + 1, cur, L, R =>
    match ls_iter w vs cur L R with
    | none => some (cur, L, R)
    | some (c2, L2, R2) => switch_loop w vs fuel c2 L2 R2

/-- `_switch_while_increase(cut_val, set_left_values, set_right_values,
weights)`: `values_seen = set_left_values | set_right_values`, iterated in
ascending order. -/
def switch_while_increase (w : ℕ → ℕ → ℚ) (fuel : ℕ) (cut_val : ℚ)
    (L R : Finset ℕ) : Option (ℚ × Finset ℕ × Finset ℕ) :=
  switch_loop w ((L ∪ R).sort (· ≤ ·)) fuel cut_val L R

/-- `_switch_while_increase` terminates on the given input: some iteration
budget makes the loop exit by itself. -/
def switch_terminates_on (w : ℕ → ℕ → ℚ) (cut_val : ℚ) (L R : Finset ℕ) : Prop :=
  ∃ fuel, (switch_while_increase w fuel cut_val L R).isSome

/-- An asymmetric weight matrix on three values: `w 0 1 = 1`, `w 0 2 = 2`,
`w 1 2 = 3`, all other entries `0`. -/
def cycleWeights : ℕ → ℕ → ℚ := fun i j =>
  if i = 0 ∧ j = 1 then 1 else if i = 0 ∧ j = 2 then 2 else if i = 1 ∧ j = 2 then 3 else 0

/-- `_calculate_split_value(left, right, weights)`: total weight across the
cut. -/
def cutF (w : ℕ → ℕ → ℚ) (L R : Finset ℕ) : ℚ := ∑ i ∈ L, ∑ j ∈ R, w i j

end LSSquaredGini

namespace GWSquaredGini

/-- `_remove_empty_values`' value map `new_to_orig_value_int`: the original
values with samples, in ascending order. -/
def new_to_orig_value_int (vns : ℕ → ℕ) (num_values : ℕ) : List ℕ :=
  (List.range num_values).filter fun v => 0 < vns v

/-- `_init_values_weights(new_contingency_table, new_values_num_seen)`:
`weights[i][j] = Σ_c ct[i][c] · (n_j - ct[j][c])`, zero on the diagonal. -/
def gw_weights (nct : ℕ → ℕ → ℕ) (nvns : ℕ → ℕ) (num_classes : ℕ) : ℕ → ℕ → ℚ :=
  fun i j =>
    if i = j then 0
    else ∑ c ∈ Finset.range num_classes, (nct i c : ℚ) * ((nvns j : ℚ) - (nct j c : ℚ))

/-- `GWSquaredGini._generate_best_split(new_to_orig_value_int,
new_contingency_table, new_values_num_seen)`.  The SDP relaxation, Cholesky
factorisation and random hyperplane of `_solve_max_cut` /
`_generate_random_partition` are summarised by the oracle `rnd`, the sign of
the random projection of each new value's column: the rounded left side is
`{v | rnd v}`.  The rounded partition is mapped back to original values and
returned with its cut value — no further processing. -/
def generate_best_split (nto : List ℕ) (nct : ℕ → ℕ → ℕ) (nvns : ℕ → ℕ)
    (num_classes : ℕ) (rnd : ℕ → Bool) : ℚ × Finset ℕ × Finset ℕ :=
  let w := gw_weights nct nvns num_classes
  let left_new := (Finset.range nto.length).filter fun v => rnd v = true
  let right_new := (Finset.range nto.length).filter fun v => ¬rnd v = true
  let left_orig := left_new.image fun v => nto.getD v 0
  let right_orig := right_new.image fun v => nto.getD v 0
  (LSSquaredGini.cutF w left_new right_new, left_orig, right_orig)

end GWSquaredGini

namespace ConditionalInferenceTreeTwoing

/-- `_is_big_contingency_table(values_num_samples, class_index_num_samples)`:
(number of values seen) × (number of classes seen) above the fixed threshold. -/
def is_big_contingency_table (cti : ContingencyTableInfo) (cns : List ℕ) : Bool :=
  decide (((List.range cti.num_values).filter fun v => 0 < cti.values_num_samples v).length *
    (cns.filter fun c => 0 < c).length > BIG_CONTINGENCY_TABLE_THRESHOLD)

/-- The `use_chi2` flag of `select_best_attribute_and_split`: scan the valid
nominal attributes and stop at the first one with a big contingency table. -/
def ci_use_chi2 (t : TreeNode) : Bool :=
  t.valid_nominal_attribute.enum.any fun x =>
    x.2 && is_big_contingency_table (t.contingency_tables x.1) t.class_index_num_samples

/-- The ranking loop of the `use_chi2` branch of
`select_best_attribute_and_split`: one `Split` per valid nominal attribute,
scored by `_calculate_c_quad_cdf` (modelled as the oracle argument, since its
numerics go through `numpy`/`scipy`). -/
def ci_rank_chi2_branch (t : TreeNode)
    (c_quad_cdf : (ℕ → ℕ → ℕ) → (ℕ → ℕ) → List ℕ → ℕ → WithBot ℚ) : List Split :=
  t.valid_nominal_attribute.enum.filterMap fun x =>
    if x.2 then
      some { attrib_index := some x.1, splits_values := [],
             criterion_value := c_quad_cdf (t.contingency_tables x.1).contingency_table
               (t.contingency_tables x.1).values_num_samples t.class_index_num_samples
               t.valid_samples_indices.length }
    else none

/-- The ranking loop of the `else` (Conditional Inference test) branch of
`select_best_attribute_and_split`, scored by the same `_calculate_c_quad_cdf`. -/
def ci_rank_c_quad_branch (t : TreeNode)
    (c_quad_cdf : (ℕ → ℕ → ℕ) → (ℕ → ℕ) → List ℕ → ℕ → WithBot ℚ) : List Split :=
  t.valid_nominal_attribute.enum.filterMap fun x =>
    if x.2 then
      some { attrib_index := some x.1, splits_values := [],
             criterion_value := c_quad_cdf (t.contingency_tables x.1).contingency_table
               (t.contingency_tables x.1).values_num_samples t.class_index_num_samples
               t.valid_samples_indices.length }
    else none

/-- The per-attribute ranking pass of
`ConditionalInferenceTreeTwoing.select_best_attribute_and_split`. -/
def ci_best_splits_per_attrib (t : TreeNode)
    (c_quad_cdf : (ℕ → ℕ → ℕ) → (ℕ → ℕ) → List ℕ → ℕ → WithBot ℚ) : List Split :=
  if ci_use_chi2 t then ci_rank_chi2_branch t c_quad_cdf
  else ci_rank_c_quad_branch t c_quad_cdf

/-- The `while True` pseudo-inverse retry ladder of `_calculate_c_quad_cdf`.
Round `k` first tries `np.linalg.pinv` + `matrix_rank` (success abstracted as
the oracle `np_ok`/value `nv`), then `scipy.linalg.pinv` (`sp_ok`/`sv`); on a
double failure the tolerance is multiplied by 10 and the loop gives up once it
exceeds `1e-6`, printing a warning (the `Bool` component) and returning
`-inf`.  `fuel` bounds the rounds; `11` is enough for the whole ladder. -/
def c_quad_retry_loop (np_ok sp_ok : ℕ → Bool) (nv sv : ℕ → ℚ) :
    ℕ → ℕ → ℚ → Bool × WithBot ℚ
  | 0, _, _ => (false, ⊥)
  | fuel + 1, k, rcond =>
    if np_ok k then (false, ((nv k : ℚ) : WithBot ℚ))
    else if sp_ok k then (false, ((sv k : ℚ) : WithBot ℚ))
    else
      if rcond * 10 > 1 / 1000000 then (true, ⊥)
      else c_quad_retry_loop np_ok sp_ok nv sv fuel (k + 1) (rcond * 10)

/-- The outcome of the retry ladder of `_calculate_c_quad_cdf`: starts at
`rcond = 1e-15`. -/
def c_quad_cdf_outcome (np_ok sp_ok : ℕ → Bool) (nv sv : ℕ → ℚ) : Bool × WithBot ℚ :=
  c_quad_retry_loop np_ok sp_ok nv sv 11 0 (1 / 10 ^ 15)

end ConditionalInferenceTreeTwoing


/-! ### Theorems.

Everything below is proof: lemmas about the definitions above, followed by the
theorems settling the claims. -/

namespace Twoing

theorem aggN_append (vns : ℕ → ℕ) (l1 l2 : List (ℕ × ℕ × ℚ)) :
    aggN vns (l1 ++ l2) = aggN vns l1 + aggN vns l2 := by
  simp [aggN]

theorem aggS_append (l1 l2 : List (ℕ × ℕ × ℚ)) :
    aggS (l1 ++ l2) = aggS l1 + aggS l2 := by
  simp [aggS]

theorem sweep_step_stateOf (orig : ℚ) (vns : ℕ → ℕ) (Sf Ss Nt : ℤ)
    (done : List (ℕ × ℕ × ℚ)) (b : WithBot ℚ) (bi : ℕ) (p : ℕ × ℕ × ℚ) :
    sweep_step orig vns (stateOf vns Sf Ss Nt done b bi) p =
      stateOf vns Sf Ss Nt (done ++ [p])
        (if b < (gainOf orig vns Sf Ss Nt (done ++ [p]) : WithBot ℚ)
         then (gainOf orig vns Sf Ss Nt (done ++ [p]) : WithBot ℚ) else b)
        (if b < (gainOf orig vns Sf Ss Nt (done ++ [p]) : WithBot ℚ) then done.length else bi) := by
  have hN : aggN vns (done ++ [p]) = aggN vns done + (vns p.1 : ℤ) := by simp [aggN]
  have hS : aggS (done ++ [p]) = aggS done + (p.2.1 : ℤ) := by simp [aggS]
  have hgain : gainOf orig vns Sf Ss Nt (done ++ [p]) =
      orig - two_class_trick_children_gini
        (((aggN vns done - aggS done) + ((vns p.1 : ℤ) - (p.2.1 : ℤ)) : ℤ) : ℚ)
        ((aggS done + (p.2.1 : ℤ) : ℤ) : ℚ)
        ((Sf - (aggN vns done - aggS done) - ((vns p.1 : ℤ) - (p.2.1 : ℤ)) : ℤ) : ℚ)
        ((Ss - aggS done - (p.2.1 : ℤ) : ℤ) : ℚ)
        ((aggN vns done + (vns p.1 : ℤ) : ℤ) : ℚ)
        ((Nt - aggN vns done - (vns p.1 : ℤ) : ℤ) : ℚ) := by
    unfold gainOf
    rw [hN, hS]
    congr 1
    congr 1 <;> push_cast <;> ring
  simp only [sweep_step, stateOf, hgain]
  rw [hN, hS]
  split_ifs with h1 <;> simp only [SweepState.mk.injEq] <;>
    exact ⟨by ring, by trivial, by trivial, by ring, by ring, by ring,
      by trivial, by trivial, by simp⟩

theorem foldl_sweep_runBest (orig : ℚ) (vns : ℕ → ℕ) (Sf Ss Nt : ℤ) :
    ∀ (rest done : List (ℕ × ℕ × ℚ)) (b : WithBot ℚ) (bi : ℕ),
      rest.foldl (sweep_step orig vns) (stateOf vns Sf Ss Nt done b bi) =
        stateOf vns Sf Ss Nt (done ++ rest)
          (runBest orig vns Sf Ss Nt done rest b bi).1
          (runBest orig vns Sf Ss Nt done rest b bi).2 := by
  intro rest
  induction rest with
  | nil => intro done b bi; simp [runBest]
  | cons p rest ih =>
    intro done b bi
    rw [List.foldl_cons, sweep_step_stateOf]
    rw [runBest]
    by_cases h : b < (gainOf orig vns Sf Ss Nt (done ++ [p]) : WithBot ℚ)
    · simp only [if_pos h]
      rw [ih]
      simp
    · simp only [if_neg h]
      rw [ih]
      simp

theorem runBest_fst_ge (orig : ℚ) (vns : ℕ → ℕ) (Sf Ss Nt : ℤ) :
    ∀ (rest done : List (ℕ × ℕ × ℚ)) (b : WithBot ℚ) (bi : ℕ),
      b ≤ (runBest orig vns Sf Ss Nt done rest b bi).1 := by
  intro rest
  induction rest with
  | nil => intro done b bi; rw [runBest]
  | cons p rest ih =>
    intro done b bi
    rw [runBest]
    by_cases h : b < (gainOf orig vns Sf Ss Nt (done ++ [p]) : WithBot ℚ)
    · simp only [if_pos h]
      exact le_trans (le_of_lt h) (ih _ _ _)
    · simp only [if_neg h]
      exact ih _ _ _

theorem runBest_dominates (orig : ℚ) (vns : ℕ → ℕ) (Sf Ss Nt : ℤ) :
    ∀ (rest done : List (ℕ × ℕ × ℚ)) (b : WithBot ℚ) (bi : ℕ) (k : ℕ), k < rest.length →
      (gainOf orig vns Sf Ss Nt (done ++ rest.take (k + 1)) : WithBot ℚ) ≤
        (runBest orig vns Sf Ss Nt done rest b bi).1 := by
  intro rest
  induction rest with
  | nil => intro done b bi k hk; simp at hk
  | cons p rest ih =>
    intro done b bi k hk
    match k with
    | 0 =>
      rw [runBest]
      by_cases h : b < (gainOf orig vns Sf Ss Nt (done ++ [p]) : WithBot ℚ)
      · simp only [if_pos h, List.take, List.take_zero]
        exact le_trans (le_refl _) (runBest_fst_ge orig vns Sf Ss Nt _ _ _ _)
      · simp only [if_neg h, List.take, List.take_zero]
        exact le_trans (not_lt.mp h) (runBest_fst_ge orig vns Sf Ss Nt _ _ _ _)
    | k + 1 =>
      rw [runBest]
      have hk' : k < rest.length := by simpa using hk
      have harr : done ++ (p :: rest).take (k + 2) = (done ++ [p]) ++ rest.take (k + 1) := by
        simp [List.take]
      rw [harr]
      by_cases h : b < (gainOf orig vns Sf Ss Nt (done ++ [p]) : WithBot ℚ)
      · simp only [if_pos h]
        exact ih _ _ _ k hk'
      · simp only [if_neg h]
        exact ih _ _ _ k hk'

theorem runBest_achieves (orig : ℚ) (vns : ℕ → ℕ) (Sf Ss Nt : ℤ) :
    ∀ (rest done : List (ℕ × ℕ × ℚ)) (b : WithBot ℚ) (bi : ℕ),
      runBest orig vns Sf Ss Nt done rest b bi = (b, bi) ∨
        ∃ k < rest.length,
          runBest orig vns Sf Ss Nt done rest b bi =
            ((gainOf orig vns Sf Ss Nt (done ++ rest.take (k + 1)) : WithBot ℚ), done.length + k) := by
  intro rest
  induction rest with
  | nil => intro done b bi; left; rw [runBest]
  | cons p rest ih =>
    intro done b bi
    rw [runBest]
    by_cases h : b < (gainOf orig vns Sf Ss Nt (done ++ [p]) : WithBot ℚ)
    · simp only [if_pos h]
      right
      rcases ih (done ++ [p]) (gainOf orig vns Sf Ss Nt (done ++ [p]) : WithBot ℚ) done.length with h0 | ⟨k, hk, hke⟩
      · exact ⟨0, by simp, by rw [h0]; simp [List.take]⟩
      · refine ⟨k + 1, by simpa using Nat.succ_lt_succ hk, ?_⟩
        rw [hke]
        have harr : done ++ (p :: rest).take (k + 2) = (done ++ [p]) ++ rest.take (k + 1) := by
          simp [List.take]
        rw [harr]
        simp [Nat.add_assoc, Nat.add_comm 1 k]
    · simp only [if_neg h]
      rcases ih (done ++ [p]) b bi with h0 | ⟨k, hk, hke⟩
      · left; exact h0
      · right
        refine ⟨k + 1, by simpa using Nat.succ_lt_succ hk, ?_⟩
        rw [hke]
        have harr : done ++ (p :: rest).take (k + 2) = (done ++ [p]) ++ rest.take (k + 1) := by
          simp [List.take]
        rw [harr]
        simp [Nat.add_assoc, Nat.add_comm 1 k]


theorem get_mem_self {α : Type} (ys : List α) (i : Fin ys.length) : ys.get i ∈ ys :=
  ys.get_mem i.1 i.2

section Stage2

variable (ys : List (ℚ × ℚ))

theorem NtOf_nonneg (hpos : ∀ p ∈ ys, 0 < p.1) : 0 ≤ NtOf ys := by
  refine Finset.sum_nonneg fun i _ => le_of_lt (hpos _ (get_mem_self ys i))

theorem posSumN_pos (hpos : ∀ p ∈ ys, 0 < p.1) {I : Finset (Fin ys.length)}
    (hne : I.Nonempty) : 0 < posSumN ys I :=
  Finset.sum_pos (fun i _ => hpos _ (get_mem_self ys i)) hne

theorem posSumN_mono (hpos : ∀ p ∈ ys, 0 < p.1) {I J : Finset (Fin ys.length)}
    (hIJ : I ⊆ J) : posSumN ys I ≤ posSumN ys J :=
  Finset.sum_le_sum_of_subset_of_nonneg hIJ fun i _ _ => le_of_lt (hpos _ (get_mem_self ys i))

theorem posSumN_lt_of_ssubset (hpos : ∀ p ∈ ys, 0 < p.1) {I J : Finset (Fin ys.length)}
    (hIJ : I ⊂ J) : posSumN ys I < posSumN ys J := by
  exact Finset.sum_lt_sum_of_subset hIJ.subset (Finset.exists_of_ssubset hIJ).choose_spec.1
    (Finset.exists_of_ssubset hIJ).choose_spec.2 (hpos _ (get_mem_self ys _))
    fun i _ _ => le_of_lt (hpos _ (get_mem_self ys i))

theorem sum_dOf_univ : ∑ i, dOf ys i = 0 := by
  simp only [dOf, Finset.sum_sub_distrib, ← Finset.mul_sum]
  show NtOf ys * StOf ys - StOf ys * NtOf ys = 0
  ring

theorem sum_dOf_eq (I : Finset (Fin ys.length)) :
    ∑ i ∈ I, dOf ys i = NtOf ys * posSumS ys I - StOf ys * posSumN ys I := by
  simp only [dOf, Finset.sum_sub_distrib, ← Finset.mul_sum]
  rfl

theorem dOf_sorted (hpos : ∀ p ∈ ys, 0 < p.1)
    (hsort : ∀ i j : Fin ys.length, (i : ℕ) ≤ j →
      (ys.get i).2 * (ys.get j).1 ≤ (ys.get j).2 * (ys.get i).1)
    {i j : Fin ys.length} (hij : (i : ℕ) ≤ j) :
    dOf ys i * (ys.get j).1 ≤ dOf ys j * (ys.get i).1 := by
  have h := hsort i j hij
  have hNt : 0 ≤ NtOf ys := NtOf_nonneg ys hpos
  have : dOf ys i * (ys.get j).1 - dOf ys j * (ys.get i).1 =
      NtOf ys * ((ys.get i).2 * (ys.get j).1 - (ys.get j).2 * (ys.get i).1) := by
    unfold dOf; ring
  nlinarith [mul_nonneg hNt (sub_nonneg.mpr h)]

theorem dOf_pos_mono (hpos : ∀ p ∈ ys, 0 < p.1)
    (hsort : ∀ i j : Fin ys.length, (i : ℕ) ≤ j →
      (ys.get i).2 * (ys.get j).1 ≤ (ys.get j).2 * (ys.get i).1)
    {i j : Fin ys.length} (hij : (i : ℕ) ≤ j) (hdi : 0 < dOf ys i) : 0 < dOf ys j := by
  have h := dOf_sorted ys hpos hsort hij
  have hni : 0 < (ys.get i).1 := hpos _ (get_mem_self ys i)
  have hnj : 0 < (ys.get j).1 := hpos _ (get_mem_self ys j)
  nlinarith

theorem DP_nonpos (hpos : ∀ p ∈ ys, 0 < p.1)
    (hsort : ∀ i j : Fin ys.length, (i : ℕ) ≤ j →
      (ys.get i).2 * (ys.get j).1 ≤ (ys.get j).2 * (ys.get i).1)
    (k : ℕ) : DP ys k ≤ 0 := by
  by_cases hX : ∃ i : Fin ys.length, (i : ℕ) < k ∧ 0 < dOf ys i
  · obtain ⟨i0, hi0k, hi0pos⟩ := hX
    have hsplit : DP ys k + ∑ i ∈ (below ys k)ᶜ, dOf ys i = 0 := by
      rw [DP, Finset.sum_add_sum_compl]
      exact sum_dOf_univ ys
    have hcompl : 0 ≤ ∑ i ∈ (below ys k)ᶜ, dOf ys i := by
      refine Finset.sum_nonneg fun j hj => ?_
      have hjk : ¬((j : ℕ) < k) := by
        simpa [below] using hj
      have : (i0 : ℕ) ≤ (j : ℕ) := by omega
      exact le_of_lt (dOf_pos_mono ys hpos hsort this hi0pos)
    linarith
  · push_neg at hX
    refine Finset.sum_nonpos fun i hi => ?_
    have : (i : ℕ) < k := by simpa [below] using hi
    exact hX i this

theorem below_succ (k : ℕ) (hk : k < ys.length) :
    below ys (k + 1) = insert (⟨k, hk⟩ : Fin ys.length) (below ys k) := by
  ext i
  simp only [below, Finset.mem_filter, Finset.mem_univ, true_and, Finset.mem_insert,
    Fin.ext_iff]
  omega

theorem not_mem_below (k : ℕ) (hk : k < ys.length) :
    (⟨k, hk⟩ : Fin ys.length) ∉ below ys k := by
  simp [below]

theorem tP_succ (k : ℕ) (hk : k < ys.length) :
    tP ys (k + 1) = tP ys k + (ys.get ⟨k, hk⟩).1 := by
  rw [tP, tP, posSumN, posSumN, below_succ ys k hk,
    Finset.sum_insert (not_mem_below ys k hk)]
  ring

theorem SP_succ (k : ℕ) (hk : k < ys.length) :
    SP ys (k + 1) = SP ys k + (ys.get ⟨k, hk⟩).2 := by
  rw [SP, SP, posSumS, posSumS, below_succ ys k hk,
    Finset.sum_insert (not_mem_below ys k hk)]
  ring

theorem DP_succ (k : ℕ) (hk : k < ys.length) :
    DP ys (k + 1) = DP ys k + dOf ys ⟨k, hk⟩ := by
  rw [DP, DP, below_succ ys k hk, Finset.sum_insert (not_mem_below ys k hk)]
  ring

theorem below_zero : below ys 0 = ∅ := by
  ext i; simp [below]

theorem below_length_le (k : ℕ) (hk : ys.length ≤ k) : below ys k = Finset.univ := by
  ext i; simp only [below, Finset.mem_filter, Finset.mem_univ, true_and, iff_true]
  omega

theorem tP_zero : tP ys 0 = 0 := by simp [tP, below_zero, posSumN]

theorem DP_zero : DP ys 0 = 0 := by simp [DP, below_zero]

theorem tP_length : tP ys ys.length = NtOf ys := by
  rw [tP, below_length_le ys ys.length le_rfl]; rfl

theorem DP_length : DP ys ys.length = 0 := by
  rw [DP, below_length_le ys ys.length le_rfl]; exact sum_dOf_univ ys

theorem tP_lt_NtOf (hpos : ∀ p ∈ ys, 0 < p.1) (k : ℕ) (hk : k < ys.length) :
    tP ys k < NtOf ys := by
  rw [← tP_length ys]
  refine posSumN_lt_of_ssubset ys hpos ?_
  rw [below_length_le ys ys.length le_rfl]
  refine Finset.ssubset_univ_iff.mpr ?_
  intro hcon
  exact (not_mem_below ys k hk) (hcon ▸ Finset.mem_univ _)

theorem tP_pos (hpos : ∀ p ∈ ys, 0 < p.1) (k : ℕ) (hk : 1 ≤ k) (hlen : 1 ≤ ys.length) :
    0 < tP ys k := by
  refine posSumN_pos ys hpos ⟨⟨0, by omega⟩, ?_⟩
  simp only [below, Finset.mem_filter, Finset.mem_univ, true_and]
  omega

theorem tP_mono (hpos : ∀ p ∈ ys, 0 < p.1) {k m : ℕ} (hkm : k ≤ m) :
    tP ys k ≤ tP ys m := by
  refine posSumN_mono ys hpos ?_
  intro i hi
  simp only [below, Finset.mem_filter, Finset.mem_univ, true_and] at hi ⊢
  omega

theorem envelope_bound (hpos : ∀ p ∈ ys, 0 < p.1)
    (hsort : ∀ i j : Fin ys.length, (i : ℕ) ≤ j →
      (ys.get i).2 * (ys.get j).1 ≤ (ys.get j).2 * (ys.get i).1)
    (k0 : ℕ) (hk0 : k0 < ys.length) (I : Finset (Fin ys.length)) :
    DP ys (k0 + 1) - (dOf ys ⟨k0, hk0⟩ / (ys.get ⟨k0, hk0⟩).1) * tP ys (k0 + 1) ≤
      (∑ i ∈ I, dOf ys i) - (dOf ys ⟨k0, hk0⟩ / (ys.get ⟨k0, hk0⟩).1) * posSumN ys I := by
  set e : Fin ys.length := ⟨k0, hk0⟩ with he
  set r : ℚ := dOf ys e / (ys.get e).1 with hr
  have hne : 0 < (ys.get e).1 := hpos _ (get_mem_self ys e)
  have hterm_le : ∀ i : Fin ys.length, (i : ℕ) ≤ k0 → dOf ys i - r * (ys.get i).1 ≤ 0 := by
    intro i hi
    have h := dOf_sorted ys hpos hsort (i := i) (j := e) hi
    have hni : 0 < (ys.get i).1 := hpos _ (get_mem_self ys i)
    rw [sub_nonpos, hr, div_mul_eq_mul_div, le_div_iff₀ hne]
    linarith
  have hterm_ge : ∀ i : Fin ys.length, k0 ≤ (i : ℕ) → 0 ≤ dOf ys i - r * (ys.get i).1 := by
    intro i hi
    have h := dOf_sorted ys hpos hsort (i := e) (j := i) hi
    have hni : 0 < (ys.get i).1 := hpos _ (get_mem_self ys i)
    rw [sub_nonneg, hr, div_mul_eq_mul_div, div_le_iff₀ hne]
    linarith
  have hsum1 : ∑ i ∈ below ys (k0 + 1), (dOf ys i - r * (ys.get i).1) ≤
      ∑ i ∈ I ∩ below ys (k0 + 1), (dOf ys i - r * (ys.get i).1) := by
    have hneg := Finset.sum_le_sum_of_subset_of_nonneg
      (f := fun i => -(dOf ys i - r * (ys.get i).1))
      (Finset.inter_subset_right : I ∩ below ys (k0 + 1) ⊆ below ys (k0 + 1)) ?_
    · simp only [Finset.sum_neg_distrib] at hneg
      linarith
    · intro i hi _
      have : (i : ℕ) < k0 + 1 := by simpa [below] using hi
      exact neg_nonneg.mpr (hterm_le i (by omega))
  have hsum2 : ∑ i ∈ I ∩ below ys (k0 + 1), (dOf ys i - r * (ys.get i).1) ≤
      ∑ i ∈ I, (dOf ys i - r * (ys.get i).1) := by
    refine Finset.sum_le_sum_of_subset_of_nonneg Finset.inter_subset_left ?_
    intro i hi hni
    have hiI : i ∈ I := hi
    have : ¬((i : ℕ) < k0 + 1) := by
      intro hcon
      exact hni (Finset.mem_inter.mpr ⟨hiI, by simpa [below] using hcon⟩)
    exact hterm_ge i (by omega)
  have hL : ∑ i ∈ below ys (k0 + 1), (dOf ys i - r * (ys.get i).1) =
      DP ys (k0 + 1) - r * tP ys (k0 + 1) := by
    rw [Finset.sum_sub_distrib, ← Finset.mul_sum]
    rfl
  have hR : ∑ i ∈ I, (dOf ys i - r * (ys.get i).1) =
      (∑ i ∈ I, dOf ys i) - r * posSumN ys I := by
    rw [Finset.sum_sub_distrib, ← Finset.mul_sum]
    rfl
  calc DP ys (k0 + 1) - r * tP ys (k0 + 1)
      = ∑ i ∈ below ys (k0 + 1), (dOf ys i - r * (ys.get i).1) := hL.symm
    _ ≤ ∑ i ∈ I ∩ below ys (k0 + 1), (dOf ys i - r * (ys.get i).1) := hsum1
    _ ≤ ∑ i ∈ I, (dOf ys i - r * (ys.get i).1) := hsum2
    _ = (∑ i ∈ I, dOf ys i) - r * posSumN ys I := hR

end Stage2

theorem ratio_mono_sq (r x y Nt : ℚ) (hx : 0 < x) (hxy : x ≤ y) (hyNt : y < Nt) :
    (r * x) ^ 2 / (x * (Nt - x)) ≤ (r * y) ^ 2 / (y * (Nt - y)) := by
  have hy : 0 < y := lt_of_lt_of_le hx hxy
  have hNy : 0 < Nt - y := by linarith
  have hNx : 0 < Nt - x := by linarith
  have hNt : 0 < Nt := by linarith
  rw [div_le_div_iff₀ (by positivity) (by positivity)]
  have key : (r * y) ^ 2 * (x * (Nt - x)) - (r * x) ^ 2 * (y * (Nt - y)) =
      r ^ 2 * x * y * Nt * (y - x) := by ring
  nlinarith [mul_nonneg (mul_nonneg (mul_nonneg (mul_nonneg (sq_nonneg r) hx.le) hy.le) hNt.le)
    (sub_nonneg.mpr hxy)]

theorem rev_ratio_mono_sq (D t nI Nt : ℚ) (ht : 0 < t) (htn : t ≤ nI) (hnN : nI < Nt) :
    ((Nt - nI) / (Nt - t) * D) ^ 2 / (nI * (Nt - nI)) ≤ D ^ 2 / (t * (Nt - t)) := by
  have hnI : 0 < nI := lt_of_lt_of_le ht htn
  have hNn : 0 < Nt - nI := by linarith
  have hNtt : 0 < Nt - t := by linarith
  have hNt : 0 < Nt := by linarith
  have h1 : ((Nt - nI) / (Nt - t) * D) ^ 2 = (Nt - nI) ^ 2 * D ^ 2 / (Nt - t) ^ 2 := by
    rw [mul_pow, div_pow]
    ring
  rw [h1, div_div, div_le_div_iff₀ (by positivity) (by positivity)]
  nlinarith [mul_nonneg (mul_nonneg (mul_nonneg (mul_nonneg (sq_nonneg D) hNn.le) hNtt.le)
    hNt.le) (sub_nonneg.mpr htn)]

theorem max_bound_combo (M a b Da Db lam mu Nt : ℚ) (hM : 0 ≤ M) (hl : 0 ≤ lam)
    (hm : 0 ≤ mu) (hs : lam + mu = 1) (ga : Da ^ 2 ≤ M * (a * (Nt - a)))
    (gb : Db ^ 2 ≤ M * (b * (Nt - b))) :
    (lam * Da + mu * Db) ^ 2 ≤ M * ((lam * a + mu * b) * (Nt - (lam * a + mu * b))) := by
  have hmu : mu = 1 - lam := by linarith
  subst hmu
  have h1 : 0 ≤ lam * (M * (a * (Nt - a)) - Da ^ 2) := mul_nonneg hl (by linarith)
  have h2 : 0 ≤ (1 - lam) * (M * (b * (Nt - b)) - Db ^ 2) := mul_nonneg hm (by linarith)
  have h3 : 0 ≤ lam * (1 - lam) * (M * (a - b) ^ 2 + (Da - Db) ^ 2) :=
    mul_nonneg (mul_nonneg hl hm)
      (add_nonneg (mul_nonneg hM (sq_nonneg _)) (sq_nonneg _))
  nlinarith [h1, h2, h3]

theorem childAgg_eq (Nt St n s : ℚ) (hn : 0 < n) (hnN : n < Nt) :
    childAgg Nt St n s =
      2 * St * (Nt - St) / Nt ^ 2 - 2 / Nt ^ 2 * Jfun Nt St n s := by
  have hNt : 0 < Nt := lt_trans hn hnN
  have hNn : 0 < Nt - n := by linarith
  rw [childAgg, two_class_trick_children_gini, Jfun]
  simp only [ne_eq, hn.ne', not_false_eq_true, if_pos, hNn.ne']
  field_simp
  ring

theorem childAgg_le_of_J (Nt St n1 s1 n2 s2 : ℚ) (h1 : 0 < n1) (h1N : n1 < Nt)
    (h2 : 0 < n2) (h2N : n2 < Nt)
    (hJ : Jfun Nt St n1 s1 ≤ Jfun Nt St n2 s2) :
    childAgg Nt St n2 s2 ≤ childAgg Nt St n1 s1 := by
  rw [childAgg_eq Nt St n1 s1 h1 h1N, childAgg_eq Nt St n2 s2 h2 h2N]
  have hNtpos : 0 < Nt := lt_trans h1 h1N
  have hNt2 : (0 : ℚ) < Nt ^ 2 := pow_pos hNtpos 2
  have := mul_le_mul_of_nonneg_left hJ (le_of_lt (div_pos two_pos hNt2))
  linarith

theorem Jfun_compl (Nt St n s : ℚ) :
    Jfun Nt St (Nt - n) (St - s) = Jfun Nt St n s := by
  rw [Jfun, Jfun]
  rw [show Nt * (St - s) - St * (Nt - n) = -(Nt * s - St * n) by ring, neg_pow,
    show (Nt - n) * (Nt - (Nt - n)) = n * (Nt - n) by ring]
  simp

theorem childAgg_compl (Nt St n s : ℚ) :
    childAgg Nt St (Nt - n) (St - s) = childAgg Nt St n s := by
  rw [childAgg, childAgg, two_class_trick_children_gini, two_class_trick_children_gini]
  have e1 : Nt - n - (St - s) = Nt - St - (n - s) := by ring
  have e2 : St - (St - s) = s := by ring
  have e3 : Nt - (Nt - n) = n := by ring
  rw [e1, e2, e3]
  by_cases hn : n = 0 <;> by_cases hm : Nt - n = 0 <;>
    simp only [hn, hm, ne_eq, not_true_eq_false, not_false_eq_true, if_true, if_false,
      ite_true, ite_false, if_neg, if_pos] <;> ring

theorem stage2_aux (ys : List (ℚ × ℚ)) (hpos : ∀ p ∈ ys, 0 < p.1)
    (hsort : ∀ i j : Fin ys.length, (i : ℕ) ≤ j →
      (ys.get i).2 * (ys.get j).1 ≤ (ys.get j).2 * (ys.get i).1)
    (I : Finset (Fin ys.length)) (hne : I.Nonempty) (hproper : I ≠ Finset.univ)
    (hDI : ∑ i ∈ I, dOf ys i ≤ 0) :
    ∃ k, 1 ≤ k ∧ k + 1 ≤ ys.length ∧
      (∑ i ∈ I, dOf ys i) ^ 2 / (posSumN ys I * (NtOf ys - posSumN ys I)) ≤
        (DP ys k) ^ 2 / (tP ys k * (NtOf ys - tP ys k)) := by
  have hV2 : 2 ≤ ys.length := by
    have h1 : 0 < I.card := Finset.card_pos.mpr hne
    have h2 : I.card < Finset.univ.card :=
      Finset.card_lt_card (Finset.ssubset_univ_iff.mpr hproper)
    have h3 : (Finset.univ : Finset (Fin ys.length)).card = ys.length := by
      rw [Finset.card_univ, Fintype.card_fin]
    omega
  have hV1 : 1 ≤ ys.length := by omega
  set Nt := NtOf ys with hNtdef
  set nI := posSumN ys I with hnIdef
  set DI := ∑ i ∈ I, dOf ys i with hDIdef
  have hnIpos : 0 < nI := posSumN_pos ys hpos hne
  have hnIlt : nI < Nt := by
    rw [hnIdef, hNtdef, NtOf]
    exact posSumN_lt_of_ssubset ys hpos (Finset.ssubset_univ_iff.mpr hproper)
  have hNt : 0 < Nt := lt_trans hnIpos hnIlt
  set k0 := Nat.findGreatest (fun k => tP ys k < nI) (ys.length - 1) with hk0def
  have hk0le : k0 ≤ ys.length - 1 := Nat.findGreatest_le _
  have hk0lt : tP ys k0 < nI := by
    have h0 : (fun k => tP ys k < nI) 0 := by
      simpa [tP_zero] using hnIpos
    exact Nat.findGreatest_spec (P := fun k => tP ys k < nI) (Nat.zero_le _) h0
  have hk0V : k0 < ys.length := by omega
  have hup : nI ≤ tP ys (k0 + 1) := by
    by_cases hcase : k0 + 1 ≤ ys.length - 1
    · have hgt := Nat.findGreatest_is_greatest (P := fun k => tP ys k < nI)
        (Nat.lt_succ_self k0) hcase
      exact le_of_not_lt hgt
    · have hk0eq : k0 + 1 = ys.length := by omega
      rw [hk0eq, tP_length]
      exact le_of_lt hnIlt
  set e : Fin ys.length := ⟨k0, hk0V⟩ with he
  set nk := (ys.get e).1 with hnk
  set dk := dOf ys e with hdk
  set r : ℚ := dk / nk with hr
  have hnkpos : 0 < nk := hpos _ (get_mem_self ys e)
  have htk1 : tP ys (k0 + 1) = tP ys k0 + nk := tP_succ ys k0 hk0V
  have hDk1 : DP ys (k0 + 1) = DP ys k0 + dk := DP_succ ys k0 hk0V
  have hdkr : dk = r * nk := by
    rw [hr, div_mul_cancel₀ _ (ne_of_gt hnkpos)]
  have henv := envelope_bound ys hpos hsort k0 hk0V I
  have hchord : DP ys k0 + r * (nI - tP ys k0) ≤ DI := by
    rw [hDk1, htk1] at henv
    have : DP ys k0 + dk - r * (tP ys k0 + nk) ≤ DI - r * nI := henv
    nlinarith [this, hdkr]
  set Dch := DP ys k0 + r * (nI - tP ys k0) with hDch
  have hDPk0 : DP ys k0 ≤ 0 := DP_nonpos ys hpos hsort k0
  have hDPk1 : DP ys (k0 + 1) ≤ 0 := DP_nonpos ys hpos hsort (k0 + 1)
  set lam : ℚ := (tP ys (k0 + 1) - nI) / nk with hlam
  set mu : ℚ := (nI - tP ys k0) / nk with hmu
  have hlamnn : 0 ≤ lam := div_nonneg (by linarith) (le_of_lt hnkpos)
  have hmunn : 0 ≤ mu := div_nonneg (by linarith) (le_of_lt hnkpos)
  have hlammu : lam + mu = 1 := by
    rw [hlam, hmu, div_add_div_same, htk1]
    field_simp
  have hDcheq : Dch = lam * DP ys k0 + mu * DP ys (k0 + 1) := by
    rw [hDch, hlam, hmu, hDk1, htk1, hdkr]
    field_simp
    ring
  have hDchle : Dch ≤ 0 := by
    rw [hDcheq]
    have h1 : lam * DP ys k0 ≤ 0 := mul_nonpos_of_nonneg_of_nonpos hlamnn hDPk0
    have h2 : mu * DP ys (k0 + 1) ≤ 0 := mul_nonpos_of_nonneg_of_nonpos hmunn hDPk1
    linarith
  have hsq : DI ^ 2 ≤ Dch ^ 2 := by
    nlinarith [mul_nonneg (sub_nonneg.mpr hchord) (show 0 ≤ -(DI + Dch) by linarith)]
  have hdenIpos : 0 < nI * (Nt - nI) := mul_pos hnIpos (by linarith)
  rcases Nat.eq_zero_or_pos k0 with hk00 | hk0pos
  · -- first segment: the chord from the origin, compare with the 1-element prefix
    refine ⟨1, le_rfl, by omega, ?_⟩
    have ht0 : tP ys 0 = 0 := tP_zero ys
    have hD0 : DP ys 0 = 0 := DP_zero ys
    have ht1 : tP ys 1 = nk := by
      have h := htk1
      rw [hk00, tP_zero] at h
      simpa using h
    have hD1 : DP ys 1 = dk := by
      have h := hDk1
      rw [hk00, DP_zero] at h
      simpa using h
    have hDchval : Dch = r * nI := by
      rw [hDch, hk00, DP_zero, tP_zero]
      ring
    have ht1nk : nI ≤ tP ys 1 := by
      have h := hup
      rw [hk00] at h
      simpa using h
    have ht1lt : tP ys 1 < Nt := tP_lt_NtOf ys hpos 1 (by omega)
    have hmono := ratio_mono_sq r nI (tP ys 1) Nt hnIpos ht1nk ht1lt
    have hfirst : DI ^ 2 / (nI * (Nt - nI)) ≤ (r * nI) ^ 2 / (nI * (Nt - nI)) := by
      rw [div_le_div_iff_of_pos_right hdenIpos, ← hDchval]
      exact hsq
    calc DI ^ 2 / (nI * (Nt - nI)) ≤ (r * nI) ^ 2 / (nI * (Nt - nI)) := hfirst
      _ ≤ (r * tP ys 1) ^ 2 / (tP ys 1 * (Nt - tP ys 1)) := hmono
      _ = (DP ys 1) ^ 2 / (tP ys 1 * (Nt - tP ys 1)) := by
          rw [hD1, ht1, hdkr]
  · rcases eq_or_lt_of_le (show k0 + 1 ≤ ys.length by omega) with hk1V | hk1V
    · -- last segment: chord shrinking towards (Nt, 0)
      refine ⟨k0, hk0pos, by omega, ?_⟩
      have htV : tP ys (k0 + 1) = Nt := by rw [hk1V, tP_length]
      have hDV : DP ys (k0 + 1) = 0 := by rw [hk1V, DP_length]
      have hdkneg : dk = -(DP ys k0) := by
        have h := hDk1
        rw [hDV] at h
        linarith
      have hnkeq : nk = Nt - tP ys k0 := by
        have := htk1
        rw [htV] at this
        linarith
      have hDchval : Dch = (Nt - nI) / (Nt - tP ys k0) * DP ys k0 := by
        rw [hDch, hr, hdkneg, hnkeq]
        have hden : Nt - tP ys k0 ≠ 0 := by
          have : tP ys k0 < Nt := tP_lt_NtOf ys hpos k0 hk0V
          linarith
        field_simp
        ring
      have htpos : 0 < tP ys k0 := tP_pos ys hpos k0 hk0pos hV1
      have hrev := rev_ratio_mono_sq (DP ys k0) (tP ys k0) nI Nt htpos (le_of_lt hk0lt) hnIlt
      have hfirst : DI ^ 2 / (nI * (Nt - nI)) ≤ Dch ^ 2 / (nI * (Nt - nI)) :=
        (div_le_div_iff_of_pos_right hdenIpos).mpr hsq
      calc DI ^ 2 / (nI * (Nt - nI)) ≤ Dch ^ 2 / (nI * (Nt - nI)) := hfirst
        _ = ((Nt - nI) / (Nt - tP ys k0) * DP ys k0) ^ 2 / (nI * (Nt - nI)) := by
            rw [hDchval]
        _ ≤ (DP ys k0) ^ 2 / (tP ys k0 * (Nt - tP ys k0)) := hrev
    · -- middle segment: concavity of the chord objective
      have hk2V : k0 + 2 ≤ ys.length := by omega
      set a := tP ys k0 with ha
      set b := tP ys (k0 + 1) with hb
      set Da := DP ys k0 with hDa
      set Db := DP ys (k0 + 1) with hDb
      have hapos : 0 < a := tP_pos ys hpos k0 hk0pos hV1
      have haN : a < Nt := tP_lt_NtOf ys hpos k0 hk0V
      have hbpos : 0 < b := tP_pos ys hpos (k0 + 1) (by omega) hV1
      have hbN : b < Nt := tP_lt_NtOf ys hpos (k0 + 1) (by omega)
      set JA := Da ^ 2 / (a * (Nt - a)) with hJA
      set JB := Db ^ 2 / (b * (Nt - b)) with hJB
      set M := max JA JB with hM
      have hdena : 0 < a * (Nt - a) := mul_pos hapos (by linarith)
      have hdenb : 0 < b * (Nt - b) := mul_pos hbpos (by linarith)
      have hJAnn : 0 ≤ JA := by
        rw [hJA]
        exact div_nonneg (sq_nonneg _) hdena.le
      have hMnn : 0 ≤ M := le_trans hJAnn (le_max_left _ _)
      have hga : Da ^ 2 ≤ M * (a * (Nt - a)) := by
        have h := le_max_left JA JB
        rw [hJA, div_le_iff₀ hdena] at h
        exact h
      have hgb : Db ^ 2 ≤ M * (b * (Nt - b)) := by
        have h := le_max_right JA JB
        rw [hJB, div_le_iff₀ hdenb] at h
        exact h
      have hcombo := max_bound_combo M a b Da Db lam mu Nt hMnn hlamnn hmunn hlammu hga hgb
      have hnIeq : nI = lam * a + mu * b := by
        have hba : b = a + nk := htk1
        rw [hlam, hmu, hba]
        field_simp
        ring
      have hDcheq2 : Dch = lam * Da + mu * Db := hDcheq
      have hkey : Dch ^ 2 ≤ M * (nI * (Nt - nI)) := by
        rw [hDcheq2, hnIeq]
        exact hcombo
      have hJle : DI ^ 2 / (nI * (Nt - nI)) ≤ M := by
        rw [div_le_iff₀ hdenIpos]
        calc DI ^ 2 ≤ Dch ^ 2 := hsq
          _ ≤ M * (nI * (Nt - nI)) := hkey
      rcases max_cases JA JB with ⟨hmax, _⟩ | ⟨hmax, _⟩
      · exact ⟨k0, hk0pos, by omega, by rw [← hJA]; rw [hM, hmax] at hJle; exact hJle⟩
      · exact ⟨k0 + 1, by omega, by omega, by rw [← hJB]; rw [hM, hmax] at hJle; exact hJle⟩

theorem DP_eq_NtSt (ys : List (ℚ × ℚ)) (k : ℕ) :
    DP ys k = NtOf ys * SP ys k - StOf ys * tP ys k :=
  sum_dOf_eq ys (below ys k)

theorem stage2_children (ys : List (ℚ × ℚ)) (hpos : ∀ p ∈ ys, 0 < p.1)
    (hsort : ∀ i j : Fin ys.length, (i : ℕ) ≤ j →
      (ys.get i).2 * (ys.get j).1 ≤ (ys.get j).2 * (ys.get i).1)
    (I : Finset (Fin ys.length)) (hne : I.Nonempty) (hproper : I ≠ Finset.univ) :
    ∃ k, 1 ≤ k ∧ k + 1 ≤ ys.length ∧
      childAgg (NtOf ys) (StOf ys) (tP ys k) (SP ys k) ≤
        childAgg (NtOf ys) (StOf ys) (posSumN ys I) (posSumS ys I) := by
  have hnIpos : 0 < posSumN ys I := posSumN_pos ys hpos hne
  have hnIlt : posSumN ys I < NtOf ys :=
    posSumN_lt_of_ssubset ys hpos (Finset.ssubset_univ_iff.mpr hproper)
  have hprefJ : ∀ k, 1 ≤ k → k + 1 ≤ ys.length →
      Jfun (NtOf ys) (StOf ys) (tP ys k) (SP ys k) =
        (DP ys k) ^ 2 / (tP ys k * (NtOf ys - tP ys k)) := by
    intro k _ _
    rw [Jfun, ← DP_eq_NtSt]
  by_cases hDI : (∑ i ∈ I, dOf ys i) ≤ 0
  · obtain ⟨k, hk1, hkV, hJ⟩ := stage2_aux ys hpos hsort I hne hproper hDI
    refine ⟨k, hk1, hkV, ?_⟩
    have htkpos : 0 < tP ys k := tP_pos ys hpos k hk1 (by omega)
    have htklt : tP ys k < NtOf ys := tP_lt_NtOf ys hpos k (by omega)
    refine childAgg_le_of_J _ _ _ _ _ _ hnIpos hnIlt htkpos htklt ?_
    rw [hprefJ k hk1 hkV, Jfun, ← sum_dOf_eq]
    exact hJ
  · have hIcne : Iᶜ.Nonempty := by
      by_contra hcon
      rw [Finset.not_nonempty_iff_eq_empty, Finset.compl_eq_empty_iff] at hcon
      exact hproper hcon
    have hIcproper : Iᶜ ≠ Finset.univ := by
      intro hcon
      rw [Finset.compl_eq_univ_iff] at hcon
      exact hne.ne_empty hcon
    have hsplitN : posSumN ys I + posSumN ys Iᶜ = NtOf ys := by
      rw [posSumN, posSumN, NtOf, posSumN, Finset.sum_add_sum_compl]
    have hsplitS : posSumS ys I + posSumS ys Iᶜ = StOf ys := by
      rw [posSumS, posSumS, StOf, posSumS, Finset.sum_add_sum_compl]
    have hsplitD : (∑ i ∈ I, dOf ys i) + (∑ i ∈ Iᶜ, dOf ys i) = 0 := by
      rw [Finset.sum_add_sum_compl]
      exact sum_dOf_univ ys
    have hDIc : (∑ i ∈ Iᶜ, dOf ys i) ≤ 0 := by
      push_neg at hDI
      linarith
    obtain ⟨k, hk1, hkV, hJ⟩ := stage2_aux ys hpos hsort Iᶜ hIcne hIcproper hDIc
    refine ⟨k, hk1, hkV, ?_⟩
    have htkpos : 0 < tP ys k := tP_pos ys hpos k hk1 (by omega)
    have htklt : tP ys k < NtOf ys := tP_lt_NtOf ys hpos k (by omega)
    have hnIcpos : 0 < posSumN ys Iᶜ := posSumN_pos ys hpos hIcne
    have hnIclt : posSumN ys Iᶜ < NtOf ys :=
      posSumN_lt_of_ssubset ys hpos (Finset.ssubset_univ_iff.mpr hIcproper)
    have hstep : childAgg (NtOf ys) (StOf ys) (tP ys k) (SP ys k) ≤
        childAgg (NtOf ys) (StOf ys) (posSumN ys Iᶜ) (posSumS ys Iᶜ) := by
      refine childAgg_le_of_J _ _ _ _ _ _ hnIcpos hnIclt htkpos htklt ?_
      rw [hprefJ k hk1 hkV, Jfun, ← sum_dOf_eq]
      exact hJ
    have hcompl : childAgg (NtOf ys) (StOf ys) (posSumN ys Iᶜ) (posSumS ys Iᶜ) =
        childAgg (NtOf ys) (StOf ys) (posSumN ys I) (posSumS ys I) := by
      have h1 : posSumN ys Iᶜ = NtOf ys - posSumN ys I := by linarith
      have h2 : posSumS ys Iᶜ = StOf ys - posSumS ys I := by linarith
      rw [h1, h2]
      exact childAgg_compl _ _ _ _
    rw [hcompl] at hstep
    exact hstep


end Twoing

end Criteria

namespace Criteria
namespace Twoing

theorem sum_univ_get {α β : Type} [AddCommMonoid β] (l : List α) (G : α → β) :
    ∑ i : Fin l.length, G (l.get i) = (l.map G).sum := by
  induction l with
  | nil => simp
  | cons x xs ih =>
    simp only [List.length_cons]
    rw [Fin.sum_univ_succ]
    simp [ih]

theorem sum_filter_lt_get {α β : Type} [AddCommMonoid β] (l : List α) (G : α → β) (k : ℕ) :
    ∑ i ∈ Finset.univ.filter (fun i : Fin l.length => (i : ℕ) < k), G (l.get i) =
      ((l.take k).map G).sum := by
  induction k with
  | zero => simp
  | succ k ih =>
    by_cases hk : k < l.length
    · have hins : Finset.univ.filter (fun i : Fin l.length => (i : ℕ) < k + 1) =
          insert (⟨k, hk⟩ : Fin l.length)
            (Finset.univ.filter (fun i : Fin l.length => (i : ℕ) < k)) := by
        ext i
        simp only [Finset.mem_filter, Finset.mem_univ, true_and, Finset.mem_insert, Fin.ext_iff]
        omega
      have hnotmem : (⟨k, hk⟩ : Fin l.length) ∉
          Finset.univ.filter (fun i : Fin l.length => (i : ℕ) < k) := by
        simp
      rw [hins, Finset.sum_insert hnotmem, ih]
      simp only [List.map_take]
      have hk' : k < (List.map G l).length := by simpa using hk
      rw [List.take_succ, List.getElem?_eq_getElem hk']
      simp [List.get_eq_getElem, add_comm]
    · have h1 : Finset.univ.filter (fun i : Fin l.length => (i : ℕ) < k + 1) = Finset.univ := by
        ext i
        simp only [Finset.mem_filter, Finset.mem_univ, true_and, iff_true]
        omega
      have h2 : l.take (k + 1) = l := List.take_of_length_le (by omega)
      rw [h1, h2, sum_univ_get]

theorem sum_filter_mem_get (w : List ℕ) (hnd : w.Nodup) (L : Finset ℕ) (hL : L ⊆ w.toFinset)
    (F : ℕ → ℚ) :
    ∑ i ∈ Finset.univ.filter (fun i : Fin w.length => w.get i ∈ L), F (w.get i) =
      ∑ v ∈ L, F v := by
  rw [Finset.sum_filter]
  have h1 : ∑ i : Fin w.length, (if w.get i ∈ L then F (w.get i) else 0) =
      ((w.map fun v => if v ∈ L then F v else 0)).sum :=
    sum_univ_get w fun v => if v ∈ L then F v else 0
  rw [h1, ← List.sum_toFinset _ hnd, Finset.sum_ite_mem,
    Finset.inter_eq_right.mpr hL]

theorem take_dropLast {α : Type} (l : List α) (j : ℕ) (hj : j ≤ l.length - 1) :
    l.dropLast.take j = l.take j := by
  rw [List.dropLast_eq_take, List.take_take, min_eq_left hj]

theorem list_sum_map_add (l : List ℕ) (A B : ℕ → ℕ) :
    (l.map fun v => A v + B v).sum = (l.map A).sum + (l.map B).sum := by
  induction l with
  | nil => simp
  | cons x xs ih => simp [ih]; omega

theorem filter_cast_sum (w : List ℕ) (h2 : ℕ → ℚ × ℚ) (L : Finset ℕ) (G : ℕ → ℚ) :
    ∑ i ∈ Finset.univ.filter (fun i : Fin (w.map h2).length =>
        w.get (Fin.cast (List.length_map w h2) i) ∈ L),
      G (w.get (Fin.cast (List.length_map w h2) i)) =
    ∑ j ∈ Finset.univ.filter (fun j : Fin w.length => w.get j ∈ L), G (w.get j) := by
  rw [Finset.sum_filter, Finset.sum_filter]
  exact Fintype.sum_equiv (finCongr (List.length_map w h2)) _ _ (fun i => rfl)

/-- C1: on a nominal attribute whose contingency table has exactly two
non-empty superclasses, the gain returned by the two-class trick sweep is at
least the Gini gain of every bipartition (L, R) of the non-empty values, and
equals the Gini gain of the bipartition it returns: Breiman-style global
optimality of the ratio-sorted prefix sweep. -/
theorem two_class_trick_globally_optimal
    (orig : ℚ) (cns : List ℕ) (values_seen : List ℕ) (vns : ℕ → ℕ) (ct : ℕ → ℕ → ℕ)
    (N : ℕ) (c1 c2 : ℕ)
    (hscan : get_non_empty_class_indices cns = (some c1, some c2))
    (hnodup : values_seen.Nodup)
    (hrow : ∀ v ∈ values_seen, ct v c1 + ct v c2 = vns v)
    (hposv : ∀ v ∈ values_seen, 0 < vns v)
    (hc1 : (values_seen.map fun v => ct v c1).sum = cns.getD c1 0)
    (hc2 : (values_seen.map fun v => ct v c2).sum = cns.getD c2 0)
    (hN : (values_seen.map vns).sum = N)
    (L R : Finset ℕ) (hunion : L ∪ R = values_seen.toFinset) (hdisj : Disjoint L R)
    (hLne : L.Nonempty) (hRne : R.Nonempty) :
    ((split_gini_gain orig vns ct c1 c2 L R : ℚ) : WithBot ℚ) ≤
      (two_class_trick orig cns values_seen vns ct N).1 ∧
    (two_class_trick orig cns values_seen vns ct N).1 =
      ((split_gini_gain orig vns ct c1 c2
          (two_class_trick orig cns values_seen vns ct N).2.1
          (two_class_trick orig cns values_seen vns ct N).2.2 : ℚ) : WithBot ℚ) := by
  -- the sorted triple list the code builds, and its value list
  have hperm : (value_number_ratio values_seen vns ct c2).Perm
      (values_seen.map fun v => (v, ct v c2, (ct v c2 : ℚ) / (vns v : ℚ))) :=
    List.perm_insertionSort _ _
  have hsorted : List.Sorted ratioLe (value_number_ratio values_seen vns ct c2) :=
    List.sorted_insertionSort _ _
  set vnr := value_number_ratio values_seen vns ct c2 with hvnr
  have hmem : ∀ p ∈ vnr, p.1 ∈ values_seen ∧
      p = (p.1, ct p.1 c2, (ct p.1 c2 : ℚ) / (vns p.1 : ℚ)) := by
    intro p hp
    obtain ⟨v, hv, hfv⟩ := List.mem_map.mp (hperm.mem_iff.mp hp)
    have hv1 : p.1 = v := by rw [← hfv]
    subst hv1
    exact ⟨hv, hfv.symm⟩
  set w := vnr.map (fun p => p.1) with hw
  have hwperm : w.Perm values_seen := by
    have h := hperm.map (fun p => p.1)
    rw [List.map_map] at h
    simpa [Function.comp_def] using h
  have hwnodup : w.Nodup := hwperm.nodup_iff.mpr hnodup
  have hwtoF : w.toFinset = values_seen.toFinset := List.toFinset_eq_of_perm _ _ hwperm
  set h2 : ℕ → ℚ × ℚ := fun v => ((vns v : ℚ), (ct v c2 : ℚ)) with hh2
  set ys := w.map h2 with hys
  have hlen_yw : ys.length = w.length := List.length_map w h2
  have hlen_wv : w.length = vnr.length := List.length_map vnr _
  have hlen_v : vnr.length = values_seen.length :=
    hperm.length_eq.trans (List.length_map _ _)
  have hw_take : ∀ k, w.take k = (vnr.take k).map (fun p => p.1) := by
    intro k
    rw [hw, List.map_take]
  have hw_mem : ∀ v ∈ w, v ∈ values_seen := fun v hv => hwperm.mem_iff.mp hv
  have hys_get : ∀ i : Fin ys.length, ys.get i = h2 (w.get (Fin.cast hlen_yw i)) := by
    intro i
    simp only [hys, List.get_eq_getElem, List.getElem_map]
    rfl
  have hpos_ys : ∀ p ∈ ys, 0 < p.1 := by
    intro p hp
    obtain ⟨v, hv, hvp⟩ := List.mem_map.mp hp
    rw [← hvp]
    have := hposv v (hw_mem v hv)
    simpa [hh2] using this
  have hratio : ∀ i : Fin vnr.length,
      (vnr.get i).2.2 = (ct (vnr.get i).1 c2 : ℚ) / (vns (vnr.get i).1 : ℚ) := by
    intro i
    have h := (hmem (vnr.get i) (get_mem_self vnr i)).2
    exact congrArg (fun q : ℕ × ℕ × ℚ => q.2.2) h
  have hnum : ∀ i : Fin vnr.length, ((vnr.get i).2.1 : ℚ) = (ct (vnr.get i).1 c2 : ℚ) := by
    intro i
    have h := (hmem (vnr.get i) (get_mem_self vnr i)).2
    exact_mod_cast congrArg (fun q : ℕ × ℕ × ℚ => ((q.2.1 : ℕ) : ℚ)) h
  have hcast_wv : ∀ i : Fin ys.length,
      w.get (Fin.cast hlen_yw i) = (vnr.get (Fin.cast (hlen_yw.trans hlen_wv) i)).1 := by
    intro i
    simp only [hw, List.get_eq_getElem, List.getElem_map]
    rfl
  have hsort_ys : ∀ i j : Fin ys.length, (i : ℕ) ≤ (j : ℕ) →
      (ys.get i).2 * (ys.get j).1 ≤ (ys.get j).2 * (ys.get i).1 := by
    intro i j hij
    rcases eq_or_lt_of_le hij with heq | hlt
    · have : i = j := Fin.ext heq
      subst this
      exact le_refl _
    · set i' : Fin vnr.length := Fin.cast (hlen_yw.trans hlen_wv) i with hi'
      set j' : Fin vnr.length := Fin.cast (hlen_yw.trans hlen_wv) j with hj'
      have hrel : ratioLe (vnr.get i') (vnr.get j') := by
        have hp : vnr.Pairwise ratioLe := hsorted
        exact List.pairwise_iff_get.mp hp i' j' (by simpa [hi', hj'] using hlt)
      have hri := hratio i'
      have hrj := hratio j'
      have hle : (ct (vnr.get i').1 c2 : ℚ) / (vns (vnr.get i').1 : ℚ) ≤
          (ct (vnr.get j').1 c2 : ℚ) / (vns (vnr.get j').1 : ℚ) := by
        rw [← hri, ← hrj]
        exact hrel
      have hvi : (0:ℚ) < (vns (vnr.get i').1 : ℚ) := by
        have := hposv _ (hmem (vnr.get i') (get_mem_self vnr i')).1
        exact_mod_cast this
      have hvj : (0:ℚ) < (vns (vnr.get j').1 : ℚ) := by
        have := hposv _ (hmem (vnr.get j') (get_mem_self vnr j')).1
        exact_mod_cast this
      have hcross := (div_le_div_iff₀ hvi hvj).mp hle
      rw [hys_get i, hys_get j, hcast_wv i, hcast_wv j]
      simpa [hh2] using hcross
  have hNt : NtOf ys = (N : ℚ) := by
    rw [NtOf, posSumN]
    rw [sum_univ_get ys (fun p => p.1)]
    rw [hys, List.map_map]
    have hcomp : ((fun p : ℚ × ℚ => p.1) ∘ h2) = fun v => ((vns v : ℕ) : ℚ) := rfl
    rw [hcomp]
    have hpermsum := (hwperm.map (fun v => ((vns v : ℕ) : ℚ))).sum_eq
    rw [hpermsum]
    rw [← hN]
    rw [show (List.map (fun v => ((vns v : ℕ) : ℚ)) values_seen) =
        List.map (fun n : ℕ => (n : ℚ)) (List.map vns values_seen) by rw [List.map_map]; rfl]
    exact (Nat.cast_list_sum _).symm
  have hSt : StOf ys = ((cns.getD c2 0 : ℕ) : ℚ) := by
    rw [StOf, posSumS]
    rw [sum_univ_get ys (fun p => p.2)]
    rw [hys, List.map_map]
    have hcomp : ((fun p : ℚ × ℚ => p.2) ∘ h2) = fun v => ((ct v c2 : ℕ) : ℚ) := rfl
    rw [hcomp]
    have hpermsum := (hwperm.map (fun v => ((ct v c2 : ℕ) : ℚ))).sum_eq
    rw [hpermsum]
    rw [← hc2]
    rw [show (List.map (fun v => ((ct v c2 : ℕ) : ℚ)) values_seen) =
        List.map (fun n : ℕ => (n : ℚ)) (List.map (fun v => ct v c2) values_seen) by
      rw [List.map_map]; rfl]
    exact (Nat.cast_list_sum _).symm
  have hsumsplit : cns.getD c1 0 + cns.getD c2 0 = N := by
    rw [← hc1, ← hc2, ← hN]
    rw [← list_sum_map_add]
    congr 1
    exact List.map_congr_left hrow
  have hSf : ((cns.getD c1 0 : ℕ) : ℚ) = (N : ℚ) - StOf ys := by
    rw [hSt]
    have : ((cns.getD c1 0 : ℕ) : ℚ) + ((cns.getD c2 0 : ℕ) : ℚ) = (N : ℚ) := by
      exact_mod_cast congrArg (fun n : ℕ => (n : ℚ)) hsumsplit
    linarith
  have htP_w : ∀ k, tP ys k = ((w.take k).map (fun v => ((vns v : ℕ) : ℚ))).sum := by
    intro k
    rw [tP, posSumN, below]
    have h := sum_filter_lt_get ys (fun p => p.1) k
    rw [h]
    rw [hys]
    rw [show List.take k (List.map h2 w) = List.map h2 (List.take k w) from
      (List.map_take ..).symm]
    rw [List.map_map]
    rfl
  have hSP_w : ∀ k, SP ys k = ((w.take k).map (fun v => ((ct v c2 : ℕ) : ℚ))).sum := by
    intro k
    rw [SP, posSumS, below]
    have h := sum_filter_lt_get ys (fun p => p.2) k
    rw [h]
    rw [hys]
    rw [show List.take k (List.map h2 w) = List.map h2 (List.take k w) from
      (List.map_take ..).symm]
    rw [List.map_map]
    rfl
  have htP_agg : ∀ k, tP ys k = ((aggN vns (vnr.take k) : ℤ) : ℚ) := by
    intro k
    rw [htP_w k, hw_take k, List.map_map, aggN]
    rw [Int.cast_list_sum, List.map_map]
    rfl
  have hSP_agg : ∀ k, SP ys k = ((aggS (vnr.take k) : ℤ) : ℚ) := by
    intro k
    rw [hSP_w k, hw_take k, List.map_map, aggS]
    rw [Int.cast_list_sum, List.map_map]
    have hcong : List.map ((fun v => ((ct v c2 : ℕ) : ℚ)) ∘ fun p : ℕ × ℕ × ℚ => p.1)
        (List.take k vnr) =
        List.map ((fun n : ℤ => (n : ℚ)) ∘ fun p : ℕ × ℕ × ℚ => (p.2.1 : ℤ))
        (List.take k vnr) := by
      refine List.map_congr_left ?_
      intro p hp
      have hpv := hmem p (List.mem_of_mem_take hp)
      simp only [Function.comp]
      rw [hpv.2]
      simp
    rw [hcong]
  have hgain_eq : ∀ k,
      gainOf orig vns (cns.getD c1 0 : ℤ) (cns.getD c2 0 : ℤ) (N : ℤ) (vnr.take k) =
        orig - childAgg (NtOf ys) (StOf ys) (tP ys k) (SP ys k) := by
    intro k
    rw [gainOf, childAgg]
    congr 1
    have e1 : ((aggN vns (vnr.take k) - aggS (vnr.take k) : ℤ) : ℚ) =
        tP ys k - SP ys k := by
      push_cast
      rw [htP_agg k, hSP_agg k]
    have e2 : ((aggS (vnr.take k) : ℤ) : ℚ) = SP ys k := (hSP_agg k).symm
    have e3 : (((cns.getD c1 0 : ℤ) - (aggN vns (vnr.take k) - aggS (vnr.take k)) : ℤ) : ℚ) =
        NtOf ys - StOf ys - (tP ys k - SP ys k) := by
      push_cast
      rw [htP_agg k, hSP_agg k, hNt]
      have := hSf
      push_cast at this ⊢
      linarith
    have e4 : (((cns.getD c2 0 : ℤ) - aggS (vnr.take k) : ℤ) : ℚ) =
        StOf ys - SP ys k := by
      push_cast
      rw [hSP_agg k, hSt]
    have e5 : ((aggN vns (vnr.take k) : ℤ) : ℚ) = tP ys k := (htP_agg k).symm
    have e6 : (((N : ℤ) - aggN vns (vnr.take k) : ℤ) : ℚ) = NtOf ys - tP ys k := by
      push_cast
      rw [htP_agg k, hNt]
    rw [e1, e2, e3, e4, e5, e6]
  have htotN : ∑ v ∈ values_seen.toFinset, ((vns v : ℕ) : ℚ) = (N : ℚ) := by
    rw [List.sum_toFinset _ hnodup]
    rw [show (List.map (fun v => ((vns v : ℕ) : ℚ)) values_seen) =
        List.map (fun n : ℕ => (n : ℚ)) (List.map vns values_seen) by rw [List.map_map]; rfl]
    rw [← Nat.cast_list_sum, hN]
  have htotS : ∑ v ∈ values_seen.toFinset, ((ct v c2 : ℕ) : ℚ) = StOf ys := by
    rw [List.sum_toFinset _ hnodup]
    rw [show (List.map (fun v => ((ct v c2 : ℕ) : ℚ)) values_seen) =
        List.map (fun n : ℕ => (n : ℚ)) (List.map (fun v => ct v c2) values_seen) by
      rw [List.map_map]; rfl]
    rw [← Nat.cast_list_sum, hc2, hSt]
  have htotF : ∑ v ∈ values_seen.toFinset, ((ct v c1 : ℕ) : ℚ) = (N : ℚ) - StOf ys := by
    rw [List.sum_toFinset _ hnodup]
    rw [show (List.map (fun v => ((ct v c1 : ℕ) : ℚ)) values_seen) =
        List.map (fun n : ℕ => (n : ℚ)) (List.map (fun v => ct v c1) values_seen) by
      rw [List.map_map]; rfl]
    rw [← Nat.cast_list_sum, hc1, ← hSf]
  have hsplit_eq : ∀ L' R' : Finset ℕ, L' ∪ R' = values_seen.toFinset → Disjoint L' R' →
      split_gini_gain orig vns ct c1 c2 L' R' =
        orig - childAgg (NtOf ys) (StOf ys)
          (∑ v ∈ L', ((vns v : ℕ) : ℚ)) (∑ v ∈ L', ((ct v c2 : ℕ) : ℚ)) := by
    intro L' R' hu hd
    have hLsub : L' ⊆ values_seen.toFinset := hu ▸ Finset.subset_union_left
    have hRsub : R' ⊆ values_seen.toFinset := hu ▸ Finset.subset_union_right
    have hsplitsum : ∀ F : ℕ → ℚ, (∑ v ∈ L', F v) + (∑ v ∈ R', F v) =
        ∑ v ∈ values_seen.toFinset, F v := by
      intro F
      rw [← Finset.sum_union hd, hu]
    have hrowL : ∑ v ∈ L', ((ct v c1 : ℕ) : ℚ) =
        (∑ v ∈ L', ((vns v : ℕ) : ℚ)) - ∑ v ∈ L', ((ct v c2 : ℕ) : ℚ) := by
      rw [← Finset.sum_sub_distrib]
      refine Finset.sum_congr rfl ?_
      intro v hv
      have h := hrow v (List.mem_toFinset.mp (hLsub hv))
      have : ((ct v c1 : ℕ) : ℚ) + ((ct v c2 : ℕ) : ℚ) = ((vns v : ℕ) : ℚ) := by
        exact_mod_cast congrArg (fun n : ℕ => (n : ℚ)) h
      linarith
    rw [split_gini_gain, childAgg]
    congr 1
    have a3 : ∑ v ∈ R', ((ct v c1 : ℕ) : ℚ) =
        (NtOf ys - StOf ys) -
          ((∑ v ∈ L', ((vns v : ℕ) : ℚ)) - ∑ v ∈ L', ((ct v c2 : ℕ) : ℚ)) := by
      have h := hsplitsum fun v => ((ct v c1 : ℕ) : ℚ)
      rw [htotF] at h
      rw [hNt]
      linarith [hrowL]
    have a4 : ∑ v ∈ R', ((ct v c2 : ℕ) : ℚ) =
        StOf ys - ∑ v ∈ L', ((ct v c2 : ℕ) : ℚ) := by
      have h := hsplitsum fun v => ((ct v c2 : ℕ) : ℚ)
      rw [htotS] at h
      linarith
    have a6 : ∑ v ∈ R', ((vns v : ℕ) : ℚ) =
        NtOf ys - ∑ v ∈ L', ((vns v : ℕ) : ℚ) := by
      have h := hsplitsum fun v => ((vns v : ℕ) : ℚ)
      rw [htotN] at h
      rw [hNt]
      linarith
    rw [hrowL, a3, a4, a6]
  -- position set of a value set, and the sum transfer
  have hIsum : ∀ (L' : Finset ℕ), L' ⊆ values_seen.toFinset → ∀ G : ℕ → ℚ,
      (∑ i ∈ Finset.univ.filter (fun i : Fin ys.length =>
          w.get (Fin.cast hlen_yw i) ∈ L'), G (w.get (Fin.cast hlen_yw i))) =
        ∑ v ∈ L', G v := by
    intro L' hLsub G
    have hLsub' : L' ⊆ w.toFinset := by rw [hwtoF]; exact hLsub
    have h1 := filter_cast_sum w h2 L' G
    exact h1.trans (sum_filter_mem_get w hwnodup L' hLsub' G)
  have hposN : ∀ (L' : Finset ℕ) (hLsub : L' ⊆ values_seen.toFinset),
      posSumN ys (Finset.univ.filter (fun i : Fin ys.length =>
        w.get (Fin.cast hlen_yw i) ∈ L')) = ∑ v ∈ L', ((vns v : ℕ) : ℚ) := by
    intro L' hLsub
    rw [posSumN]
    rw [Finset.sum_congr rfl (fun i _ => by rw [hys_get i])]
    exact hIsum L' hLsub fun v => (h2 v).1
  have hposS : ∀ (L' : Finset ℕ) (hLsub : L' ⊆ values_seen.toFinset),
      posSumS ys (Finset.univ.filter (fun i : Fin ys.length =>
        w.get (Fin.cast hlen_yw i) ∈ L')) = ∑ v ∈ L', ((ct v c2 : ℕ) : ℚ) := by
    intro L' hLsub
    rw [posSumS]
    rw [Finset.sum_congr rfl (fun i _ => by rw [hys_get i])]
    exact hIsum L' hLsub fun v => (h2 v).2
  -- characterize the code's computation
  have hinit : (⟨0, 0, 0, (cns.getD c1 0 : ℤ), (cns.getD c2 0 : ℤ), (N : ℤ), ⊥, 0, 0⟩ :
      SweepState) = stateOf vns (cns.getD c1 0 : ℤ) (cns.getD c2 0 : ℤ) (N : ℤ) [] ⊥ 0 := by
    simp [stateOf, aggN, aggS]
  have hcode0 : two_class_trick orig cns values_seen vns ct N =
      ((vnr.dropLast.foldl (sweep_step orig vns)
          ⟨0, 0, 0, (cns.getD c1 0 : ℤ), (cns.getD c2 0 : ℤ), (N : ℤ), ⊥, 0, 0⟩).best_gain,
       ((vnr.take ((vnr.dropLast.foldl (sweep_step orig vns)
          ⟨0, 0, 0, (cns.getD c1 0 : ℤ), (cns.getD c2 0 : ℤ), (N : ℤ), ⊥, 0, 0⟩).best_idx + 1)).map
          fun p => p.1).toFinset,
       values_seen.toFinset \ ((vnr.take ((vnr.dropLast.foldl (sweep_step orig vns)
          ⟨0, 0, 0, (cns.getD c1 0 : ℤ), (cns.getD c2 0 : ℤ), (N : ℤ), ⊥, 0, 0⟩).best_idx + 1)).map
          fun p => p.1).toFinset) := by
    unfold two_class_trick
    rw [hscan]
  have hRBdef : ∀ (x : WithBot ℚ × ℕ),
      x = runBest orig vns (cns.getD c1 0 : ℤ) (cns.getD c2 0 : ℤ) (N : ℤ) [] vnr.dropLast ⊥ 0 →
      two_class_trick orig cns values_seen vns ct N =
        (x.1, ((vnr.take (x.2 + 1)).map fun p => p.1).toFinset,
         values_seen.toFinset \ ((vnr.take (x.2 + 1)).map fun p => p.1).toFinset) := by
    intro x hx
    rw [hcode0, hinit, foldl_sweep_runBest orig vns _ _ _ vnr.dropLast [] ⊥ 0, ← hx]
    rfl
  set RB := runBest orig vns (cns.getD c1 0 : ℤ) (cns.getD c2 0 : ℤ) (N : ℤ) [] vnr.dropLast ⊥ 0
    with hRB
  have hcode := hRBdef RB hRB
  have hlen_yv : ys.length = vnr.length := hlen_yw.trans hlen_wv
  have hdrop_len : vnr.dropLast.length = vnr.length - 1 := List.length_dropLast vnr
  -- the dominance part
  have hLsub : L ⊆ values_seen.toFinset := hunion ▸ Finset.subset_union_left
  have hRsub : R ⊆ values_seen.toFinset := hunion ▸ Finset.subset_union_right
  have hfindpos : ∀ v ∈ values_seen.toFinset, ∃ i : Fin ys.length,
      w.get (Fin.cast hlen_yw i) = v := by
    intro v hv
    have hvw : v ∈ w := by
      rw [← List.mem_toFinset, hwtoF]
      exact hv
    obtain ⟨j, hj⟩ := List.mem_iff_get.mp hvw
    refine ⟨Fin.cast hlen_yw.symm j, ?_⟩
    have : Fin.cast hlen_yw (Fin.cast hlen_yw.symm j) = j := by
      apply Fin.ext
      rfl
    rw [this, hj]
  set Ipos := Finset.univ.filter (fun i : Fin ys.length =>
    w.get (Fin.cast hlen_yw i) ∈ L) with hIpos
  have hIposne : Ipos.Nonempty := by
    obtain ⟨v, hvL⟩ := hLne
    obtain ⟨i, hi⟩ := hfindpos v (hLsub hvL)
    exact ⟨i, by simp only [hIpos, Finset.mem_filter, Finset.mem_univ, true_and, hi]; exact hvL⟩
  have hIposproper : Ipos ≠ Finset.univ := by
    obtain ⟨v, hvR⟩ := hRne
    obtain ⟨i, hi⟩ := hfindpos v (hRsub hvR)
    intro hcon
    have hiIn : i ∈ Ipos := hcon ▸ Finset.mem_univ i
    rw [hIpos, Finset.mem_filter] at hiIn
    rw [hi] at hiIn
    exact (Finset.disjoint_right.mp hdisj hvR) hiIn.2
  obtain ⟨k, hk1, hkV, hchild⟩ := stage2_children ys hpos_ys hsort_ys Ipos hIposne hIposproper
  rw [hposN L hLsub, hposS L hLsub] at hchild
  have hkv1 : k + 1 ≤ vnr.length := hlen_yv ▸ hkV
  have hdom : ((split_gini_gain orig vns ct c1 c2 L R : ℚ) : WithBot ℚ) ≤ RB.1 := by
    have h1 : split_gini_gain orig vns ct c1 c2 L R ≤
        gainOf orig vns (cns.getD c1 0 : ℤ) (cns.getD c2 0 : ℤ) (N : ℤ) (vnr.take k) := by
      rw [hsplit_eq L R hunion hdisj, hgain_eq k]
      linarith [hchild]
    have h2 := runBest_dominates orig vns (cns.getD c1 0 : ℤ) (cns.getD c2 0 : ℤ) (N : ℤ)
      vnr.dropLast [] ⊥ 0 (k - 1) (by omega)
    rw [List.nil_append] at h2
    rw [show k - 1 + 1 = k by omega] at h2
    rw [take_dropLast vnr k (by omega)] at h2
    refine le_trans (WithBot.coe_le_coe.mpr h1) ?_
    exact h2
  -- the achieved part
  have hV2 : 2 ≤ vnr.length := by
    obtain ⟨v, hvL⟩ := hLne
    obtain ⟨u, huR⟩ := hRne
    have hvu : v ≠ u := by
      intro hcon
      exact (Finset.disjoint_left.mp hdisj hvL) (hcon ▸ huR)
    have hcard : 2 ≤ values_seen.toFinset.card := by
      have : ({v, u} : Finset ℕ) ⊆ values_seen.toFinset := by
        intro x hx
        rcases Finset.mem_insert.mp hx with hx | hx
        · exact hLsub (hx ▸ hvL)
        · exact hRsub ((Finset.mem_singleton.mp hx) ▸ huR)
      calc 2 = ({v, u} : Finset ℕ).card := (Finset.card_pair hvu).symm
        _ ≤ values_seen.toFinset.card := Finset.card_le_card this
    have hlen : values_seen.toFinset.card ≤ values_seen.length := values_seen.toFinset_card_le
    omega
  have hdlpos : 0 < vnr.dropLast.length := by
    rw [hdrop_len]
    omega
  rcases runBest_achieves orig vns (cns.getD c1 0 : ℤ) (cns.getD c2 0 : ℤ) (N : ℤ)
      vnr.dropLast [] ⊥ 0 with hbot | ⟨j, hj, hRBeq⟩
  · exfalso
    have h2 := runBest_dominates orig vns (cns.getD c1 0 : ℤ) (cns.getD c2 0 : ℤ) (N : ℤ)
      vnr.dropLast [] ⊥ 0 0 hdlpos
    rw [← hRB] at hbot
    rw [← hRB, hbot] at h2
    exact (WithBot.coe_ne_bot) (le_bot_iff.mp h2)
  · rw [← hRB] at hRBeq
    rw [List.nil_append, List.length_nil, Nat.zero_add] at hRBeq
    rw [take_dropLast vnr (j + 1) (by omega)] at hRBeq
    have hRB1 : RB.1 = ((gainOf orig vns (cns.getD c1 0 : ℤ) (cns.getD c2 0 : ℤ) (N : ℤ)
        (vnr.take (j + 1)) : ℚ) : WithBot ℚ) := by
      rw [hRBeq]
    have hRB2 : RB.2 = j := by
      rw [hRBeq]
    refine ⟨?_, ?_⟩
    · rw [hcode]
      exact hdom
    · -- the returned pair is an actual bipartition achieving the returned gain
      rw [hcode, hRB2]
      have hLb_list : (vnr.take (j + 1)).map (fun p => p.1) = w.take (j + 1) :=
        (hw_take (j + 1)).symm
      have hLbsub : ((vnr.take (j + 1)).map fun p => p.1).toFinset ⊆ values_seen.toFinset := by
        rw [hLb_list, ← hwtoF]
        intro x hx
        rw [List.mem_toFinset] at hx ⊢
        exact (List.take_sublist _ _).mem hx
      have htakend : (w.take (j + 1)).Nodup := (List.take_sublist _ _).nodup hwnodup
      have hLbsum : ∀ F : ℕ → ℚ,
          ∑ v ∈ ((vnr.take (j + 1)).map fun p => p.1).toFinset, F v =
            ((w.take (j + 1)).map F).sum := by
        intro F
        rw [hLb_list]
        exact List.sum_toFinset F htakend
      rw [hsplit_eq _ _ (Finset.union_sdiff_of_subset hLbsub) Finset.disjoint_sdiff]
      rw [hLbsum fun v => ((vns v : ℕ) : ℚ), hLbsum fun v => ((ct v c2 : ℕ) : ℚ)]
      rw [← htP_w (j + 1), ← hSP_w (j + 1)]
      rw [← hgain_eq (j + 1)]
      rw [hRB1]

/-- Closed witness for C1 at a concrete two-value, two-class node. -/
theorem two_class_trick_globally_optimal_witness :
    ((split_gini_gain (1/2) (fun _ => 1) (fun v c => if v = c then 1 else 0) 0 1
        {0} {1} : ℚ) : WithBot ℚ) ≤
      (two_class_trick (1/2) [1, 1] [0, 1] (fun _ => 1)
        (fun v c => if v = c then 1 else 0) 2).1 ∧
    (two_class_trick (1/2) [1, 1] [0, 1] (fun _ => 1)
        (fun v c => if v = c then 1 else 0) 2).1 =
      ((split_gini_gain (1/2) (fun _ => 1) (fun v c => if v = c then 1 else 0) 0 1
          (two_class_trick (1/2) [1, 1] [0, 1] (fun _ => 1)
            (fun v c => if v = c then 1 else 0) 2).2.1
          (two_class_trick (1/2) [1, 1] [0, 1] (fun _ => 1)
            (fun v c => if v = c then 1 else 0) 2).2.2 : ℚ) : WithBot ℚ) :=
  two_class_trick_globally_optimal (1/2) [1, 1] [0, 1] (fun _ => 1)
    (fun v c => if v = c then 1 else 0) 2 0 1
    (by decide) (by decide) (by decide) (by decide) (by decide) (by decide)
    (by decide) {0} {1} (by decide) (by decide) (by decide) (by decide)

end Twoing
end Criteria

namespace Criteria
namespace Twoing

/-- C10: whenever the two-class trick returns a gain above the `-inf` sentinel,
the two value sets it returns are disjoint, both non-empty, and partition the
given seen values; in the degenerate returns (fewer than two non-empty
superclasses, or at most one seen value) the right set is empty and the gain is
the `-inf` sentinel. -/
theorem two_class_trick_partition_invariants
    (orig : ℚ) (cns values_seen : List ℕ) (vns : ℕ → ℕ) (ct : ℕ → ℕ → ℕ) (N : ℕ)
    (hnodup : values_seen.Nodup) :
    ((two_class_trick orig cns values_seen vns ct N).1 ≠ ⊥ →
      Disjoint (two_class_trick orig cns values_seen vns ct N).2.1
          (two_class_trick orig cns values_seen vns ct N).2.2 ∧
        (two_class_trick orig cns values_seen vns ct N).2.1.Nonempty ∧
        (two_class_trick orig cns values_seen vns ct N).2.2.Nonempty ∧
        (two_class_trick orig cns values_seen vns ct N).2.1 ∪
            (two_class_trick orig cns values_seen vns ct N).2.2 =
          values_seen.toFinset) ∧
    (((∀ c1 c2 : ℕ, get_non_empty_class_indices cns ≠ (some c1, some c2)) ∨
        values_seen.length ≤ 1) →
      (two_class_trick orig cns values_seen vns ct N).2.2 = ∅ ∧
        (two_class_trick orig cns values_seen vns ct N).1 = ⊥) := by
  rcases hg : get_non_empty_class_indices cns with ⟨o1, o2⟩
  match o1, o2 with
  | none, o2 =>
    have hres : two_class_trick orig cns values_seen vns ct N =
        ((⊥ : WithBot ℚ), {0}, ∅) := by
      unfold two_class_trick
      rw [hg]
    rw [hres]
    exact ⟨fun hne => absurd rfl hne, fun _ => ⟨rfl, rfl⟩⟩
  | some c1, none =>
    have hres : two_class_trick orig cns values_seen vns ct N =
        ((⊥ : WithBot ℚ), {0}, ∅) := by
      unfold two_class_trick
      rw [hg]
    rw [hres]
    exact ⟨fun hne => absurd rfl hne, fun _ => ⟨rfl, rfl⟩⟩
  | some c1, some c2 =>
    have hscan : get_non_empty_class_indices cns = (some c1, some c2) := hg
    have hperm : (value_number_ratio values_seen vns ct c2).Perm
        (values_seen.map fun v => (v, ct v c2, (ct v c2 : ℚ) / (vns v : ℚ))) :=
      List.perm_insertionSort _ _
    set vnr := value_number_ratio values_seen vns ct c2 with hvnr
    have hmem : ∀ p ∈ vnr, p.1 ∈ values_seen := by
      intro p hp
      obtain ⟨v, hv, hfv⟩ := List.mem_map.mp (hperm.mem_iff.mp hp)
      have hv1 : p.1 = v := by rw [← hfv]
      rw [hv1]
      exact hv
    have hlen_v : vnr.length = values_seen.length :=
      hperm.length_eq.trans (List.length_map _ _)
    set w := vnr.map (fun p => p.1) with hw
    have hwperm : w.Perm values_seen := by
      have h := hperm.map (fun p => p.1)
      rw [List.map_map] at h
      simpa [Function.comp_def] using h
    have hwnodup : w.Nodup := hwperm.nodup_iff.mpr hnodup
    have hwtoF : w.toFinset = values_seen.toFinset := List.toFinset_eq_of_perm _ _ hwperm
    have hinit : (⟨0, 0, 0, (cns.getD c1 0 : ℤ), (cns.getD c2 0 : ℤ), (N : ℤ), ⊥, 0, 0⟩ :
        SweepState) = stateOf vns (cns.getD c1 0 : ℤ) (cns.getD c2 0 : ℤ) (N : ℤ) [] ⊥ 0 := by
      simp [stateOf, aggN, aggS]
    have hcode0 : two_class_trick orig cns values_seen vns ct N =
        ((vnr.dropLast.foldl (sweep_step orig vns)
            ⟨0, 0, 0, (cns.getD c1 0 : ℤ), (cns.getD c2 0 : ℤ), (N : ℤ), ⊥, 0, 0⟩).best_gain,
         ((vnr.take ((vnr.dropLast.foldl (sweep_step orig vns)
            ⟨0, 0, 0, (cns.getD c1 0 : ℤ), (cns.getD c2 0 : ℤ), (N : ℤ), ⊥, 0, 0⟩).best_idx + 1)).map
            fun p => p.1).toFinset,
         values_seen.toFinset \ ((vnr.take ((vnr.dropLast.foldl (sweep_step orig vns)
            ⟨0, 0, 0, (cns.getD c1 0 : ℤ), (cns.getD c2 0 : ℤ), (N : ℤ), ⊥, 0, 0⟩).best_idx + 1)).map
            fun p => p.1).toFinset) := by
      unfold two_class_trick
      rw [hscan]
    have hRBdef : ∀ (x : WithBot ℚ × ℕ),
        x = runBest orig vns (cns.getD c1 0 : ℤ) (cns.getD c2 0 : ℤ) (N : ℤ) [] vnr.dropLast ⊥ 0 →
        two_class_trick orig cns values_seen vns ct N =
          (x.1, ((vnr.take (x.2 + 1)).map fun p => p.1).toFinset,
           values_seen.toFinset \ ((vnr.take (x.2 + 1)).map fun p => p.1).toFinset) := by
      intro x hx
      rw [hcode0, hinit, foldl_sweep_runBest orig vns _ _ _ vnr.dropLast [] ⊥ 0, ← hx]
      rfl
    set RB := runBest orig vns (cns.getD c1 0 : ℤ) (cns.getD c2 0 : ℤ) (N : ℤ) [] vnr.dropLast ⊥ 0
      with hRB
    have hcode := hRBdef RB hRB
    have hdrop_len : vnr.dropLast.length = vnr.length - 1 := List.length_dropLast vnr
    have hLsub : ∀ k : ℕ, ((vnr.take k).map fun p => p.1).toFinset ⊆ values_seen.toFinset := by
      intro k x hx
      rw [List.mem_toFinset] at hx
      obtain ⟨p, hp, hpx⟩ := List.mem_map.mp hx
      rw [List.mem_toFinset]
      rw [← hpx]
      exact hmem p ((List.take_sublist _ _).mem hp)
    constructor
    · intro hne
      rw [hcode] at hne ⊢
      simp only at hne ⊢
      -- the loop must have run and updated: extract the achieving index
      have hdl_ne : vnr.dropLast ≠ [] := by
        intro hnil
        rw [hnil] at hRB
        rw [hRB] at hne
        simp [runBest] at hne
      have hdlpos : 0 < vnr.dropLast.length := List.length_pos.mpr hdl_ne
      rcases runBest_achieves orig vns (cns.getD c1 0 : ℤ) (cns.getD c2 0 : ℤ) (N : ℤ)
          vnr.dropLast [] ⊥ 0 with hbot | ⟨j, hj, hRBeq⟩
      · rw [← hRB] at hbot
        rw [hbot] at hne
        exact absurd rfl hne
      · rw [← hRB, List.nil_append, List.length_nil, Nat.zero_add] at hRBeq
        have hRB2 : RB.2 = j := by rw [hRBeq]
        have hj1 : j + 1 ≤ vnr.length - 1 := by omega
        have hvlen2 : 2 ≤ vnr.length := by omega
        have htake_len : (vnr.take (j + 1)).length = j + 1 := by
          rw [List.length_take]
          omega
        refine ⟨Finset.disjoint_sdiff, ?_, ?_, Finset.union_sdiff_of_subset (hLsub _)⟩
        · -- left side nonempty: it holds the first j+1 sorted values
          rw [hRB2]
          have : 0 < ((vnr.take (j + 1)).map fun p => p.1).length := by
            rw [List.length_map, htake_len]
            omega
          obtain ⟨x, hx⟩ := List.exists_mem_of_length_pos this
          exact ⟨x, List.mem_toFinset.mpr hx⟩
        · -- right side nonempty: the left side has at most length-1 values
          rw [hRB2]
          have hcard_left : (((vnr.take (j + 1)).map fun p => p.1).toFinset).card ≤ j + 1 := by
            calc (((vnr.take (j + 1)).map fun p => p.1).toFinset).card
                ≤ ((vnr.take (j + 1)).map fun p => p.1).length := List.toFinset_card_le _
              _ = j + 1 := by rw [List.length_map, htake_len]
          have hcard_vs : values_seen.toFinset.card = vnr.length := by
            rw [List.toFinset_card_of_nodup hnodup, hlen_v]
          have hlt : (((vnr.take (j + 1)).map fun p => p.1).toFinset).card <
              values_seen.toFinset.card := by omega
          have hcard_sdiff : 0 < (values_seen.toFinset \
              ((vnr.take (j + 1)).map fun p => p.1).toFinset).card := by
            rw [Finset.card_sdiff (hLsub _)]
            omega
          exact Finset.card_pos.mp hcard_sdiff
    · intro hdegen
      rcases hdegen with hnone | hlen1
      · exact absurd rfl (hnone c1 c2)
      · have hvlen1 : vnr.length ≤ 1 := by omega
        have hdl_nil : vnr.dropLast = [] := by
          rw [← List.length_eq_zero]
          omega
        have hRBval : RB = (⊥, 0) := by
          rw [hRB, hdl_nil]
          simp [runBest]
        have htake : vnr.take (0 + 1) = vnr := List.take_of_length_le (by omega)
        rw [hcode, hRBval]
        simp only [htake]
        refine ⟨?_, trivial⟩
        have : (vnr.map fun p => p.1).toFinset = values_seen.toFinset := hwtoF
        rw [this]
        exact Finset.sdiff_self _

/-- Closed witness for C10 at a concrete two-value, two-class node. -/
theorem two_class_trick_partition_invariants_witness :
    ((two_class_trick (1/2) [1, 1] [0, 1] (fun _ => 1) (fun v c => if v = c then 1 else 0) 2).1 ≠ ⊥ →
      Disjoint (two_class_trick (1/2) [1, 1] [0, 1] (fun _ => 1) (fun v c => if v = c then 1 else 0) 2).2.1
          (two_class_trick (1/2) [1, 1] [0, 1] (fun _ => 1) (fun v c => if v = c then 1 else 0) 2).2.2 ∧
        (two_class_trick (1/2) [1, 1] [0, 1] (fun _ => 1) (fun v c => if v = c then 1 else 0) 2).2.1.Nonempty ∧
        (two_class_trick (1/2) [1, 1] [0, 1] (fun _ => 1) (fun v c => if v = c then 1 else 0) 2).2.2.Nonempty ∧
        (two_class_trick (1/2) [1, 1] [0, 1] (fun _ => 1) (fun v c => if v = c then 1 else 0) 2).2.1 ∪
            (two_class_trick (1/2) [1, 1] [0, 1] (fun _ => 1) (fun v c => if v = c then 1 else 0) 2).2.2 =
          ([0, 1] : List ℕ).toFinset) ∧
    (((∀ c1 c2 : ℕ, get_non_empty_class_indices [1, 1] ≠ (some c1, some c2)) ∨
        ([0, 1] : List ℕ).length ≤ 1) →
      (two_class_trick (1/2) [1, 1] [0, 1] (fun _ => 1) (fun v c => if v = c then 1 else 0) 2).2.2 = ∅ ∧
        (two_class_trick (1/2) [1, 1] [0, 1] (fun _ => 1) (fun v c => if v = c then 1 else 0) 2).1 = ⊥) :=
  two_class_trick_partition_invariants (1/2) [1, 1] [0, 1] (fun _ => 1)
    (fun v c => if v = c then 1 else 0) 2 (by decide)

end Twoing
end Criteria

namespace Criteria
namespace Twoing

/-- C5: on a node in which no attribute is marked valid (every nominal and
numeric validity flag is false), `select_best_attribute_and_split` produces no
candidate split and returns the sentinel empty `Split`
(`attrib_index = none`, no split values, criterion value `-inf`). -/
theorem select_no_valid_attribute_empty_split
    (t : TreeNode)
    (hnom : ∀ b ∈ t.valid_nominal_attribute, b = false)
    (hnum : ∀ b ∈ t.valid_numeric_attribute, b = false) :
    select_best_attribute_and_split t =
      { attrib_index := none, splits_values := [], criterion_value := ⊥ } := by
  have hlist : best_splits_per_attrib t = [] := by
    unfold best_splits_per_attrib
    rw [List.filterMap_eq_nil_iff]
    intro x hx
    have hx2 : x.2 ∈ t.valid_nominal_attribute.zip t.valid_numeric_attribute :=
      List.snd_mem_of_mem_enum hx
    have h1 : x.2.1 = false := hnom _ (List.of_mem_zip hx2).1
    have h2 : x.2.2 = false := hnum _ (List.of_mem_zip hx2).2
    rcases x with ⟨a, b1, b2⟩
    simp only at h1 h2
    rw [h1, h2]
  unfold select_best_attribute_and_split
  rw [hlist]
  rfl

/-- Closed witness for C5 on a one-attribute node with both flags false. -/
theorem select_no_valid_attribute_empty_split_witness :
    select_best_attribute_and_split
      { valid_samples_indices := [],
        valid_nominal_attribute := [false],
        valid_numeric_attribute := [false],
        contingency_tables := fun _ => ⟨fun _ _ => 0, fun _ => 0, 0, 0⟩,
        class_index_num_samples := [],
        dataset := ⟨fun _ _ => 0, fun _ => 0, 0⟩ } =
      { attrib_index := none, splits_values := [], criterion_value := ⊥ } :=
  select_no_valid_attribute_empty_split _ (by decide) (by decide)

end Twoing
end Criteria

namespace Criteria
namespace Twoing

/-- `_calculate_gini_index` on a two-class count list, closed form (the
skip-guard on empty classes is invisible because an empty class contributes a
zero term). -/
theorem calculate_gini_index_pair (n x y : ℕ) :
    calculate_gini_index n [x, y] =
      1 - ((x : ℚ) / (n : ℚ)) ^ 2 - ((y : ℚ) / (n : ℚ)) ^ 2 := by
  simp only [calculate_gini_index, List.foldl]
  split_ifs with h1 h2 h2 <;>
    simp_all [Nat.pos_iff_ne_zero, Nat.le_zero]

/-- C7 counterexample: the same two-superclass data, presented once as sorted
numeric `(value, class)` pairs and once as a nominal contingency table, makes
`_twoing_for_numeric` return best value `1/18` (a Twoing criterion value) while
`_two_class_trick` returns best value `4/9` (a Gini gain): the two solvers do
not produce the same best value. -/
theorem numeric_scan_vs_two_class_trick_counterexample :
    (twoing_for_numeric [((0 : ℚ), 1), ((1 : ℚ), 0), ((2 : ℚ), 1)] 2).1 =
      ((1 / 18 : ℚ) : WithBot ℚ) ∧
    (two_class_trick (calculate_gini_index 3 [1, 2]) [1, 2] [0, 1, 2] (fun _ => 1)
        (fun v c => if c = 1 then (if v = 1 then 0 else 1) else if v = 1 then 1 else 0)
        3).1 = ((4 / 9 : ℚ) : WithBot ℚ) ∧
    (1 / 18 : ℚ) ≠ (4 / 9 : ℚ) := by
  have habs : |(1 / 2 : ℚ)| = 1 / 2 := by
    rw [abs_of_nonneg]
    norm_num
  refine ⟨?_, ?_, by norm_num⟩
  · norm_num [twoing_for_numeric, twoing_for_numeric_step, get_twoing_value, bump,
      List.foldl, List.replicate, habs, WithBot.bot_lt_coe, WithBot.coe_lt_coe]
  · norm_num [two_class_trick, get_non_empty_class_indices, get_non_empty_go,
      value_number_ratio, List.insertionSort, List.orderedInsert, ratioLe,
      calculate_gini_index, sweep_step, two_class_trick_children_gini, List.foldl,
      WithBot.bot_lt_coe, WithBot.coe_lt_coe]

/-- C7 (amended): the numeric scan scores a boundary with the Twoing value,
which on two-superclass aggregates equals exactly half the Gini gain the
two-class trick would assign the same split: the two solvers agree up to the
fixed factor 2, not on the values themselves. -/
theorem twoing_value_eq_half_gini_gain (lf ls rf rs nl nr : ℕ)
    (hl : lf + ls = nl) (hr : rf + rs = nr) (hnl : 0 < nl) (hnr : 0 < nr) :
    get_twoing_value [lf, ls] [rf, rs] nl nr =
      (calculate_gini_index (nl + nr) [lf + rf, ls + rs] -
        two_class_trick_children_gini (lf : ℚ) (ls : ℚ) (rf : ℚ) (rs : ℚ)
          (nl : ℚ) (nr : ℚ)) / 2 := by
  have hnl' : ((nl : ℚ)) ≠ 0 := Nat.cast_ne_zero.mpr hnl.ne'
  have hnr' : ((nr : ℚ)) ≠ 0 := Nat.cast_ne_zero.mpr hnr.ne'
  have hn' : ((nl : ℚ)) + (nr : ℚ) ≠ 0 := by positivity
  have gstep : ∀ (acc : ℚ) (a b : ℕ),
      (if a + b = 0 then acc else acc + |(a : ℚ) / (nl : ℚ) - (b : ℚ) / (nr : ℚ)|) =
        acc + |(a : ℚ) / (nl : ℚ) - (b : ℚ) / (nr : ℚ)| := by
    intro acc a b
    split_ifs with h
    · have ha : a = 0 := by omega
      have hb : b = 0 := by omega
      simp [ha, hb]
    · rfl
  have hsum : get_twoing_value [lf, ls] [rf, rs] nl nr =
      ((nl : ℚ) / ((nl : ℚ) + (nr : ℚ)) * ((nr : ℚ) / ((nl : ℚ) + (nr : ℚ))) / 4) *
        (|(lf : ℚ) / (nl : ℚ) - (rf : ℚ) / (nr : ℚ)| +
          |(ls : ℚ) / (nl : ℚ) - (rs : ℚ) / (nr : ℚ)|) ^ 2 := by
    simp only [get_twoing_value, List.zip, List.zipWith, List.foldl, gstep]
    ring
  rw [hsum, calculate_gini_index_pair]
  have hls : (ls : ℚ) = (nl : ℚ) - (lf : ℚ) := by
    have h := congrArg (fun k : ℕ => (k : ℚ)) hl
    push_cast at h
    linarith
  have hrs : (rs : ℚ) = (nr : ℚ) - (rf : ℚ) := by
    have h := congrArg (fun k : ℕ => (k : ℚ)) hr
    push_cast at h
    linarith
  rw [hls, hrs]
  have hneg : ((nl : ℚ) - (lf : ℚ)) / (nl : ℚ) - ((nr : ℚ) - (rf : ℚ)) / (nr : ℚ) =
      -((lf : ℚ) / (nl : ℚ) - (rf : ℚ) / (nr : ℚ)) := by
    field_simp
    ring
  rw [hneg, abs_neg]
  have htwo : |(lf : ℚ) / (nl : ℚ) - (rf : ℚ) / (nr : ℚ)| +
      |(lf : ℚ) / (nl : ℚ) - (rf : ℚ) / (nr : ℚ)| =
        2 * |(lf : ℚ) / (nl : ℚ) - (rf : ℚ) / (nr : ℚ)| := by ring
  rw [htwo, mul_pow, sq_abs]
  simp only [two_class_trick_children_gini, if_pos hnl', if_pos hnr']
  push_cast
  rw [hls, hrs]
  field_simp
  ring

/-- Closed witness for the amended C7 identity at a concrete split aggregate. -/
theorem twoing_value_eq_half_gini_gain_witness :
    get_twoing_value [1, 0] [0, 2] 1 2 =
      (calculate_gini_index (1 + 2) [1 + 0, 0 + 2] -
        two_class_trick_children_gini ((1 : ℕ) : ℚ) ((0 : ℕ) : ℚ) ((0 : ℕ) : ℚ)
          ((2 : ℕ) : ℚ) ((1 : ℕ) : ℚ) ((2 : ℕ) : ℚ)) / 2 :=
  twoing_value_eq_half_gini_gain 1 0 0 2 1 2 (by decide) (by decide) (by decide) (by decide)

end Twoing
end Criteria

namespace Criteria
namespace Twoing

theorem getD_set_ne (l : List ℕ) (c c' x : ℕ) (h : c ≠ c') :
    (l.set c x).getD c' 0 = l.getD c' 0 := by
  rw [List.getD_eq_getElem?_getD, List.getD_eq_getElem?_getD, List.getElem?_set_ne h]

theorem bump_out (l : List ℕ) (c : ℕ) (d : ℤ) (h : l.length ≤ c) : bump l c d = l := by
  unfold bump
  exact List.set_eq_of_length_le h

theorem bump_one_comm (l : List ℕ) (c c' : ℕ) :
    bump (bump l c 1) c' 1 = bump (bump l c' 1) c 1 := by
  rcases eq_or_ne c c' with rfl | hne
  · rfl
  · unfold bump
    rw [getD_set_ne l c c' _ hne, getD_set_ne l c' c _ hne.symm]
    exact List.set_comm _ _ _ hne

theorem bump_cancel (l : List ℕ) (c : ℕ) :
    bump (bump l c 1) c (-1) = l := by
  by_cases h : c < l.length
  · unfold bump
    have h1 : (l.set c (((l.getD c 0 : ℤ) + 1).toNat)).getD c 0 =
        (((l.getD c 0 : ℤ) + 1)).toNat := by
      rw [List.getD_eq_getElem?_getD, List.getElem?_set_self h]
      rfl
    rw [h1]
    have h2 : (((((l.getD c 0 : ℤ) + 1)).toNat : ℤ) + (-1)).toNat = l.getD c 0 := by omega
    rw [h2, List.set_set]
    have h3 : l.getD c 0 = l[c] := List.getD_eq_getElem l 0 h
    rw [h3]
    apply List.ext_getElem?
    intro n
    rcases eq_or_ne c n with rfl | hne
    · rw [List.getElem?_set_self h, List.getElem?_eq_getElem h]
    · rw [List.getElem?_set_ne hne]
  · have h' : l.length ≤ c := le_of_not_lt h
    rw [bump_out l c 1 h', bump_out l c (-1) h']

theorem foldl_bump_shift (l : List (ℚ × ℕ)) :
    ∀ (init : List ℕ) (c : ℕ),
      l.foldl (fun acc p => bump acc p.2 1) (bump init c 1) =
        bump (l.foldl (fun acc p => bump acc p.2 1) init) c 1 := by
  induction l with
  | nil => intro init c; rfl
  | cons p rest ih =>
    intro init c
    simp only [List.foldl]
    rw [bump_one_comm init c p.2]
    exact ih (bump init p.2 1) c

theorem countsFold_cons (nc : ℕ) (p : ℚ × ℕ) (l : List (ℚ × ℕ)) :
    countsFold nc (p :: l) = bump (countsFold nc l) p.2 1 := by
  unfold countsFold
  simp only [List.foldl]
  exact foldl_bump_shift l (List.replicate nc 0) p.2

theorem countsFold_append_one (nc : ℕ) (l : List (ℚ × ℕ)) (p : ℚ × ℕ) :
    countsFold nc (l ++ [p]) = bump (countsFold nc l) p.2 1 := by
  unfold countsFold
  rw [List.foldl_append]
  rfl

theorem num_step_eq (nc : ℕ) (svc : List (ℚ × ℕ)) (k : ℕ) (hk : 0 < k)
    (hlen : k < svc.length) (b : WithBot ℚ × Option ℚ × Option ℚ) :
    twoing_for_numeric_step (numStateOf nc svc k b) (svc.getD k (0, 0)) =
      numStateOf nc svc (k + 1)
        (if (svc.getD k (0, 0)).1 ≠ (svc.getD (k - 1) (0, 0)).1 then
          if b.1 < ((scoreAt nc svc k : ℚ) : WithBot ℚ) then
            (((scoreAt nc svc k : ℚ) : WithBot ℚ), some (svc.getD (k - 1) (0, 0)).1,
             some (svc.getD k (0, 0)).1)
          else b
        else b) := by
  have hgetd : svc.getD k (0, 0) = svc[k] := List.getD_eq_getElem svc (0, 0) hlen
  have htake : svc.take (k + 1) = svc.take k ++ [svc[k]] := by
    rw [List.take_succ, List.getElem?_eq_getElem hlen]
    rfl
  have hdrop : svc.drop k = svc[k] :: svc.drop (k + 1) := List.drop_eq_getElem_cons hlen
  have hcl : countsFold nc (svc.take (k + 1)) =
      bump (countsFold nc (svc.take k)) (svc[k]).2 1 := by
    rw [htake, countsFold_append_one]
  have hcr : bump (countsFold nc (svc.drop k)) (svc[k]).2 (-1) =
      countsFold nc (svc.drop (k + 1)) := by
    rw [hdrop, countsFold_cons, bump_cancel]
  have hnr : svc.length - k - 1 = svc.length - (k + 1) := by omega
  have hk1 : k + 1 - 1 = k := by omega
  simp only [twoing_for_numeric_step, numStateOf, scoreAt, hgetd]
  split_ifs with h1 h2 <;>
    simp only [NumericSweepState.mk.injEq] <;>
    and_intros <;>
      first
      | trivial
      | exact hnr
      | rw [hcl]
      | rw [← hcr]
      | (rw [hk1, List.getD_eq_getElem svc (0, 0) hlen]
         try exact (not_not.mp h1).symm)

theorem foldl_num_runBdy (nc : ℕ) (svc : List (ℚ × ℕ)) :
    ∀ (suffix : List (ℚ × ℕ)) (k : ℕ) (b : WithBot ℚ × Option ℚ × Option ℚ),
      0 < k → svc.drop k = suffix →
      suffix.foldl twoing_for_numeric_step (numStateOf nc svc k b) =
        numStateOf nc svc (k + suffix.length) (runBdy nc svc suffix k b) := by
  intro suffix
  induction suffix with
  | nil =>
    intro k b hk hdrop
    simp [runBdy]
  | cons p rest ih =>
    intro k b hk hdrop
    have hlen : k < svc.length := by
      by_contra hge
      rw [List.drop_eq_nil_of_le (le_of_not_lt hge)] at hdrop
      exact List.noConfusion hdrop
    have hcons : svc[k] :: svc.drop (k + 1) = p :: rest := by
      rw [← List.drop_eq_getElem_cons hlen, hdrop]
    have hpk : p = svc.getD k (0, 0) := by
      rw [List.getD_eq_getElem svc (0, 0) hlen]
      exact (List.cons.injEq _ _ _ _ ▸ hcons).1.symm
    have hrest : svc.drop (k + 1) = rest := (List.cons.injEq _ _ _ _ ▸ hcons).2
    simp only [List.foldl]
    rw [hpk, num_step_eq nc svc k hk hlen b,
      ih (k + 1) _ (by omega) hrest]
    simp only [runBdy, List.length_cons]
    have harith : k + (rest.length + 1) = k + 1 + rest.length := by omega
    rw [harith]

theorem twoing_for_numeric_eq_runBdy (nc : ℕ) (p0 : ℚ × ℕ) (rest : List (ℚ × ℕ)) :
    twoing_for_numeric (p0 :: rest) nc =
      ((runBdy nc (p0 :: rest) rest 1 (⊥, none, none)).1,
       (runBdy nc (p0 :: rest) rest 1 (⊥, none, none)).2.1,
       (runBdy nc (p0 :: rest) rest 1 (⊥, none, none)).2.2) := by
  have hbump : (List.replicate nc 0).set p0.2 1 = bump (List.replicate nc 0) p0.2 1 := by
    unfold bump
    have h0 : (List.replicate nc (0 : ℕ)).getD p0.2 0 = 0 := by
      rw [List.getD_eq_getElem?_getD, List.getElem?_replicate]
      split_ifs <;> rfl
    rw [h0]
    rfl
  have hinit : ({ last_left_value := p0.1, num_left := 1, num_right := rest.length,
                  class_num_left := (List.replicate nc 0).set p0.2 1,
                  class_num_right :=
                    rest.foldl (fun acc p => bump acc p.2 1) (List.replicate nc 0),
                  best := ⊥, best_last_left := none,
                  best_first_right := none } : NumericSweepState) =
      numStateOf nc (p0 :: rest) 1 (⊥, none, none) := by
    simp only [numStateOf, NumericSweepState.mk.injEq]
    and_intros <;> trivial
  simp only [twoing_for_numeric]
  rw [hinit, foldl_num_runBdy nc (p0 :: rest) rest 1 (⊥, none, none) one_pos rfl]
  rfl

theorem runBdy_fst_ge (nc : ℕ) (svc : List (ℚ × ℕ)) :
    ∀ (suffix : List (ℚ × ℕ)) (k : ℕ) (b : WithBot ℚ × Option ℚ × Option ℚ),
      b.1 ≤ (runBdy nc svc suffix k b).1 := by
  intro suffix
  induction suffix with
  | nil => intro k b; exact le_refl _
  | cons p rest ih =>
    intro k b
    simp only [runBdy]
    refine le_trans ?_ (ih (k + 1) _)
    split_ifs with h1 h2
    · exact le_of_lt h2
    · exact le_refl _
    · exact le_refl _

theorem runBdy_dominates (nc : ℕ) (svc : List (ℚ × ℕ)) :
    ∀ (suffix : List (ℚ × ℕ)) (k : ℕ) (b : WithBot ℚ × Option ℚ × Option ℚ),
      svc.drop k = suffix →
      ∀ j, k ≤ j → j < svc.length →
        (svc.getD j (0, 0)).1 ≠ (svc.getD (j - 1) (0, 0)).1 →
        ((scoreAt nc svc j : ℚ) : WithBot ℚ) ≤ (runBdy nc svc suffix k b).1 := by
  intro suffix
  induction suffix with
  | nil =>
    intro k b hdrop j hkj hjlen _
    exfalso
    have : svc.length ≤ k := by
      by_contra hlt
      rw [List.drop_eq_getElem_cons (lt_of_not_le hlt)] at hdrop
      exact List.noConfusion hdrop
    omega
  | cons p rest ih =>
    intro k b hdrop j hkj hjlen hne
    have hlen : k < svc.length := by
      by_contra hge
      rw [List.drop_eq_nil_of_le (le_of_not_lt hge)] at hdrop
      exact List.noConfusion hdrop
    have hcons : svc[k] :: svc.drop (k + 1) = p :: rest := by
      rw [← List.drop_eq_getElem_cons hlen, hdrop]
    have hpk : p = svc.getD k (0, 0) := by
      rw [List.getD_eq_getElem svc (0, 0) hlen]
      exact (List.cons.injEq _ _ _ _ ▸ hcons).1.symm
    have hrest : svc.drop (k + 1) = rest := (List.cons.injEq _ _ _ _ ▸ hcons).2
    rcases eq_or_lt_of_le hkj with rfl | hlt
    · simp only [runBdy]
      refine le_trans ?_ (runBdy_fst_ge nc svc rest (k + 1) _)
      rw [hpk, if_pos hne]
      split_ifs with h2
      · exact le_refl _
      · exact not_lt.mp h2
    · simp only [runBdy]
      exact ih (k + 1) _ hrest j hlt hjlen hne

theorem runBdy_achieves (nc : ℕ) (svc : List (ℚ × ℕ)) :
    ∀ (suffix : List (ℚ × ℕ)) (k : ℕ) (b : WithBot ℚ × Option ℚ × Option ℚ),
      svc.drop k = suffix →
      runBdy nc svc suffix k b = b ∨
        ∃ j, k ≤ j ∧ j < svc.length ∧
          (svc.getD j (0, 0)).1 ≠ (svc.getD (j - 1) (0, 0)).1 ∧
          runBdy nc svc suffix k b =
            (((scoreAt nc svc j : ℚ) : WithBot ℚ), some (svc.getD (j - 1) (0, 0)).1,
             some (svc.getD j (0, 0)).1) := by
  intro suffix
  induction suffix with
  | nil => intro k b _; exact Or.inl rfl
  | cons p rest ih =>
    intro k b hdrop
    have hlen : k < svc.length := by
      by_contra hge
      rw [List.drop_eq_nil_of_le (le_of_not_lt hge)] at hdrop
      exact List.noConfusion hdrop
    have hcons : svc[k] :: svc.drop (k + 1) = p :: rest := by
      rw [← List.drop_eq_getElem_cons hlen, hdrop]
    have hpk : p = svc.getD k (0, 0) := by
      rw [List.getD_eq_getElem svc (0, 0) hlen]
      exact (List.cons.injEq _ _ _ _ ▸ hcons).1.symm
    have hrest : svc.drop (k + 1) = rest := (List.cons.injEq _ _ _ _ ▸ hcons).2
    simp only [runBdy]
    rcases ih (k + 1)
        (if p.1 ≠ (svc.getD (k - 1) (0, 0)).1 then
          if b.1 < ((scoreAt nc svc k : ℚ) : WithBot ℚ) then
            (((scoreAt nc svc k : ℚ) : WithBot ℚ), some (svc.getD (k - 1) (0, 0)).1, some p.1)
          else b
        else b) hrest with h | ⟨j, hj1, hj2, hj3, hj4⟩
    · rw [h]
      by_cases h1 : p.1 ≠ (svc.getD (k - 1) (0, 0)).1
      · by_cases h2 : b.1 < ((scoreAt nc svc k : ℚ) : WithBot ℚ)
        · right
          refine ⟨k, le_refl k, hlen, ?_, ?_⟩
          · rw [← hpk]
            exact h1
          · rw [if_pos h1, if_pos h2, hpk]
        · left
          rw [if_pos h1, if_neg h2]
      · left
        rw [if_neg h1]
    · right
      exact ⟨j, by omega, hj2, hj3, hj4⟩

/-- C8: the numeric-attribute scan considers a candidate cut only between
consecutive pairs whose values differ: every such boundary's Twoing value is
dominated by the returned best, the returned best (when not the `-inf`
sentinel) is attained at such a boundary with the recorded pair being the two
consecutive unequal values there, and the split is built as the two singleton
sets of the last left value and the first right value. -/
theorem twoing_numeric_scan_cuts_at_value_changes (svc : List (ℚ × ℕ)) (nc : ℕ) :
    (∀ j, 0 < j → j < svc.length →
        (svc.getD j (0, 0)).1 ≠ (svc.getD (j - 1) (0, 0)).1 →
        ((scoreAt nc svc j : ℚ) : WithBot ℚ) ≤ (twoing_for_numeric svc nc).1) ∧
    ((twoing_for_numeric svc nc).1 = ⊥ ∧
        (twoing_for_numeric svc nc).2 = (none, none) ∨
      ∃ j, 0 < j ∧ j < svc.length ∧
        (svc.getD j (0, 0)).1 ≠ (svc.getD (j - 1) (0, 0)).1 ∧
        (twoing_for_numeric svc nc).1 = ((scoreAt nc svc j : ℚ) : WithBot ℚ) ∧
        (twoing_for_numeric svc nc).2 =
          (some (svc.getD (j - 1) (0, 0)).1, some (svc.getD j (0, 0)).1)) ∧
    ∀ (t : TreeNode) (a : ℕ),
      twoing_numeric_split t a =
        { attrib_index := some a,
          splits_values :=
            [{(twoing_for_numeric (List.insertionSort pairLe (get_numeric_values_seen
                t.valid_samples_indices t.dataset.samples t.dataset.sample_class a))
                t.dataset.num_classes).2.1},
             {(twoing_for_numeric (List.insertionSort pairLe (get_numeric_values_seen
                t.valid_samples_indices t.dataset.samples t.dataset.sample_class a))
                t.dataset.num_classes).2.2}],
          criterion_value :=
            (twoing_for_numeric (List.insertionSort pairLe (get_numeric_values_seen
                t.valid_samples_indices t.dataset.samples t.dataset.sample_class a))
                t.dataset.num_classes).1 } := by
  match svc with
  | [] =>
    refine ⟨?_, ?_, ?_⟩
    · intro j hj hjlen
      simp only [List.length_nil] at hjlen
      omega
    · left
      exact ⟨rfl, rfl⟩
    · intro t a
      rfl
  | p0 :: rest =>
    have hrun := twoing_for_numeric_eq_runBdy nc p0 rest
    refine ⟨?_, ?_, ?_⟩
    · intro j hj hjlen hne
      rw [hrun]
      exact runBdy_dominates nc (p0 :: rest) rest 1 (⊥, none, none) rfl j hj hjlen hne
    · rcases runBdy_achieves nc (p0 :: rest) rest 1 (⊥, none, none) rfl with
        h | ⟨j, hj1, hj2, hj3, hj4⟩
      · left
        rw [hrun, h]
        exact ⟨rfl, rfl⟩
      · right
        exact ⟨j, hj1, hj2, hj3, by rw [hrun, hj4], by rw [hrun, hj4]⟩
    · intro t a
      rfl

/-- Closed witness for C8 at a two-pair list with one real boundary. -/
theorem twoing_numeric_scan_cuts_at_value_changes_witness :
    ((scoreAt 2 [((0 : ℚ), 0), ((1 : ℚ), 1)] 1 : ℚ) : WithBot ℚ) ≤
      (twoing_for_numeric [((0 : ℚ), 0), ((1 : ℚ), 1)] 2).1 :=
  (twoing_numeric_scan_cuts_at_value_changes [((0 : ℚ), 0), ((1 : ℚ), 1)] 2).1 1
    (by decide) (by decide) (by norm_num)

end Twoing
end Criteria

namespace Criteria
namespace ConditionalInferenceTreeTwoing

/-- C2 (code bug): at a node in chi-square mode (some valid nominal attribute
has a big contingency table), the ranking pass still scores every attribute
with `_calculate_c_quad_cdf` — the `use_chi2` branch is character-for-character
the same computation as the exact-statistic branch, and the Pearson chi-square
helper `_get_chi_square_test_p_value` is never called, so the documented
fallback to the chi-square statistic does not happen. -/
theorem ci_big_table_does_not_switch_statistic (t : TreeNode)
    (c_quad_cdf : (ℕ → ℕ → ℕ) → (ℕ → ℕ) → List ℕ → ℕ → WithBot ℚ)
    (h : ci_use_chi2 t = true) :
    ci_best_splits_per_attrib t c_quad_cdf = ci_rank_c_quad_branch t c_quad_cdf ∧
      ci_rank_chi2_branch t c_quad_cdf = ci_rank_c_quad_branch t c_quad_cdf := by
  constructor
  · unfold ci_best_splits_per_attrib
    rw [h]
    rfl
  · rfl

set_option maxRecDepth 10000 in
/-- Closed witness for C2 at a node with a 201-value, two-class table. -/
theorem ci_big_table_does_not_switch_statistic_witness :
    ci_best_splits_per_attrib
        { valid_samples_indices := [],
          valid_nominal_attribute := [true],
          valid_numeric_attribute := [false],
          contingency_tables := fun _ => ⟨fun _ _ => 1, fun _ => 1, 201, 2⟩,
          class_index_num_samples := [100, 101],
          dataset := ⟨fun _ _ => 0, fun _ => 0, 2⟩ }
        (fun _ _ _ _ => ⊥) =
      ci_rank_c_quad_branch
        { valid_samples_indices := [],
          valid_nominal_attribute := [true],
          valid_numeric_attribute := [false],
          contingency_tables := fun _ => ⟨fun _ _ => 1, fun _ => 1, 201, 2⟩,
          class_index_num_samples := [100, 101],
          dataset := ⟨fun _ _ => 0, fun _ => 0, 2⟩ }
        (fun _ _ _ _ => ⊥) ∧
      ci_rank_chi2_branch
        { valid_samples_indices := [],
          valid_nominal_attribute := [true],
          valid_numeric_attribute := [false],
          contingency_tables := fun _ => ⟨fun _ _ => 1, fun _ => 1, 201, 2⟩,
          class_index_num_samples := [100, 101],
          dataset := ⟨fun _ _ => 0, fun _ => 0, 2⟩ }
        (fun _ _ _ _ => ⊥) =
      ci_rank_c_quad_branch
        { valid_samples_indices := [],
          valid_nominal_attribute := [true],
          valid_numeric_attribute := [false],
          contingency_tables := fun _ => ⟨fun _ _ => 1, fun _ => 1, 201, 2⟩,
          class_index_num_samples := [100, 101],
          dataset := ⟨fun _ _ => 0, fun _ => 0, 2⟩ }
        (fun _ _ _ _ => ⊥) :=
  ci_big_table_does_not_switch_statistic _ _ (by decide)

/-- C6: when every pseudo-inverse attempt fails, the escalating-tolerance
ladder of `_calculate_c_quad_cdf` (10 rounds, tolerance ×10 each time, hard
ceiling `1e-6`) prints the diagnostic warning and returns `-inf` instead of
propagating the exception. -/
theorem c_quad_all_attempts_fail_warns_neg_inf (np_ok sp_ok : ℕ → Bool) (nv sv : ℕ → ℚ)
    (h : ∀ k, np_ok k = false ∧ sp_ok k = false) :
    c_quad_cdf_outcome np_ok sp_ok nv sv = (true, ⊥) := by
  unfold c_quad_cdf_outcome
  norm_num [c_quad_retry_loop, (h 0).1, (h 0).2, (h 1).1, (h 1).2, (h 2).1, (h 2).2,
    (h 3).1, (h 3).2, (h 4).1, (h 4).2, (h 5).1, (h 5).2, (h 6).1, (h 6).2,
    (h 7).1, (h 7).2, (h 8).1, (h 8).2, (h 9).1, (h 9).2, (h 10).1, (h 10).2]

/-- Closed witness for C6 with everywhere-failing oracles. -/
theorem c_quad_all_attempts_fail_warns_neg_inf_witness :
    c_quad_cdf_outcome (fun _ => false) (fun _ => false) (fun _ => 0) (fun _ => 0) =
      (true, ⊥) :=
  c_quad_all_attempts_fail_warns_neg_inf _ _ _ _ (fun _ => ⟨rfl, rfl⟩)

end ConditionalInferenceTreeTwoing
end Criteria

namespace Criteria
namespace LSSquaredGini

theorem cutF_insert_right (w : ℕ → ℕ → ℚ) (L R : Finset ℕ) (v : ℕ) (hv : v ∉ R) :
    cutF w L (insert v R) = cutF w L R + ∑ i ∈ L, w i v := by
  unfold cutF
  rw [← Finset.sum_add_distrib]
  refine Finset.sum_congr rfl fun i _ => ?_
  rw [Finset.sum_insert hv]
  ring

theorem cutF_erase_left (w : ℕ → ℕ → ℚ) (L R : Finset ℕ) (v : ℕ) (hv : v ∈ L) :
    cutF w L R = cutF w (L.erase v) R + ∑ j ∈ R, w v j := by
  unfold cutF
  rw [← Finset.sum_erase_add _ _ hv]

theorem cutF_erase_right (w : ℕ → ℕ → ℚ) (L R : Finset ℕ) (v : ℕ) (hv : v ∈ R) :
    cutF w L R = cutF w L (R.erase v) + ∑ i ∈ L, w i v := by
  unfold cutF
  rw [← Finset.sum_add_distrib]
  refine Finset.sum_congr rfl fun i _ => ?_
  rw [← Finset.sum_erase_add _ _ hv]

theorem cutF_insert_left (w : ℕ → ℕ → ℚ) (L R : Finset ℕ) (v : ℕ) (hv : v ∉ L) :
    cutF w (insert v L) R = cutF w L R + ∑ j ∈ R, w v j := by
  unfold cutF
  rw [Finset.sum_insert hv]
  ring

theorem cutF_single_switch_left (w : ℕ → ℕ → ℚ) (hsym : ∀ i j, w i j = w j i)
    (L R : Finset ℕ) (hdisj : Disjoint L R) (v : ℕ) (hv : v ∈ L) (cur : ℚ) :
    split_gain_for_single_switch cur L R v w - cur =
      cutF w (L.erase v) (insert v R) - cutF w L R := by
  have hvR : v ∉ R := Finset.disjoint_left.mp hdisj hv
  rw [cutF_insert_right w _ _ v hvR, cutF_erase_left w L R v hv]
  rw [split_gain_for_single_switch, if_pos hv]
  have h1 : ∑ j ∈ R, w v j = ∑ j ∈ R, w j v := Finset.sum_congr rfl fun j _ => hsym v j
  rw [h1]
  ring

theorem cutF_single_switch_right (w : ℕ → ℕ → ℚ) (hsym : ∀ i j, w i j = w j i)
    (L R : Finset ℕ) (v : ℕ) (hvL : v ∉ L) (hv : v ∈ R) (cur : ℚ) :
    split_gain_for_single_switch cur L R v w - cur =
      cutF w (insert v L) (R.erase v) - cutF w L R := by
  rw [cutF_insert_left w _ _ v hvL, cutF_erase_right w L R v hv]
  rw [split_gain_for_single_switch, if_neg hvL]
  have h1 : ∑ j ∈ R.erase v, w v j = ∑ j ∈ R.erase v, w j v :=
    Finset.sum_congr rfl fun j _ => hsym v j
  rw [h1]
  ring

theorem cutF_double_switch (w : ℕ → ℕ → ℚ) (hsym : ∀ i j, w i j = w j i)
    (L R : Finset ℕ) (hdisj : Disjoint L R) (v1 v2 : ℕ) (hv1 : v1 ∈ L) (hv2 : v2 ∈ R)
    (cur : ℚ) :
    split_gain_for_double_switch cur L R v1 v2 w - cur =
      cutF w (insert v2 (L.erase v1)) (insert v1 (R.erase v2)) - cutF w L R := by
  have hv1R : v1 ∉ R := Finset.disjoint_left.mp hdisj hv1
  have hv2L : v2 ∉ L := Finset.disjoint_right.mp hdisj hv2
  have hv2Le : v2 ∉ L.erase v1 := fun h => hv2L (Finset.mem_of_mem_erase h)
  have hv1Re : v1 ∉ R.erase v2 := fun h => hv1R (Finset.mem_of_mem_erase h)
  have hnew : cutF w (insert v2 (L.erase v1)) (insert v1 (R.erase v2)) =
      cutF w (L.erase v1) (R.erase v2) + (∑ i ∈ L.erase v1, w i v1) +
        ((∑ j ∈ R.erase v2, w v2 j) + w v2 v1) := by
    rw [cutF_insert_left w _ _ v2 hv2Le, cutF_insert_right w _ _ v1 hv1Re,
      Finset.sum_insert hv1Re]
    ring
  have hold : cutF w L R =
      cutF w (L.erase v1) (R.erase v2) + (∑ i ∈ L.erase v1, w i v2) +
        ((∑ j ∈ R.erase v2, w v1 j) + w v1 v2) := by
    rw [cutF_erase_left w L R v1 hv1, cutF_erase_right w _ R v2 hv2,
      ← Finset.sum_erase_add R _ hv2]
  rw [hnew, hold, split_gain_for_double_switch, if_pos hv1]
  have h1 : ∑ j ∈ R.erase v2, w v2 j = ∑ j ∈ R.erase v2, w j v2 :=
    Finset.sum_congr rfl fun j _ => hsym v2 j
  have h2 : ∑ j ∈ R.erase v2, w v1 j = ∑ j ∈ R.erase v2, w j v1 :=
    Finset.sum_congr rfl fun j _ => hsym v1 j
  have h3 : w v2 v1 = w v1 v2 := hsym v2 v1
  rw [Finset.sum_sub_distrib, Finset.sum_sub_distrib, h1, h2, h3]
  ring

theorem single_scan_ge (w : ℕ → ℕ → ℚ) :
    ∀ (l : List ℕ) (cur : ℚ) (L R : Finset ℕ) (r : ℚ × Finset ℕ × Finset ℕ),
      single_scan w cur L R l = some r → cur + EPSILON ≤ r.1 := by
  intro l
  induction l with
  | nil => intro cur L R r h; exact absurd h (by rw [single_scan]; exact Option.noConfusion)
  | cons v rest ih =>
    intro cur L R r h
    simp only [single_scan] at h
    by_cases hcond : EPSILON ≤ split_gain_for_single_switch cur L R v w - cur
    · rw [if_pos hcond] at h
      injection h with h2
      have hr : r.1 = split_gain_for_single_switch cur L R v w := by rw [← h2]
      linarith
    · rw [if_neg hcond] at h
      exact ih cur L R r h

theorem double_scan_ge (w : ℕ → ℕ → ℚ) :
    ∀ (pl : List (ℕ × ℕ)) (cur : ℚ) (L R : Finset ℕ) (r : ℚ × Finset ℕ × Finset ℕ),
      double_scan w cur L R pl = some r → cur + EPSILON ≤ r.1 := by
  intro pl
  induction pl with
  | nil => intro cur L R r h; exact absurd h (by rw [double_scan]; exact Option.noConfusion)
  | cons p rest ih =>
    intro cur L R r h
    rcases p with ⟨v1, v2⟩
    simp only [double_scan] at h
    by_cases hside : (v1 ∈ L ∧ v2 ∈ L) ∨ (v1 ∈ R ∧ v2 ∈ R)
    · rw [if_pos hside] at h
      exact ih cur L R r h
    · rw [if_neg hside] at h
      by_cases hcond : EPSILON ≤ split_gain_for_double_switch cur L R v1 v2 w - cur
      · rw [if_pos hcond] at h
        injection h with h2
        have hr : r.1 = split_gain_for_double_switch cur L R v1 v2 w := by rw [← h2]
        linarith
      · rw [if_neg hcond] at h
        exact ih cur L R r h

theorem ls_iter_ge (w : ℕ → ℕ → ℚ) (vs : List ℕ) (cur : ℚ) (L R : Finset ℕ)
    (r : ℚ × Finset ℕ × Finset ℕ) (h : ls_iter w vs cur L R = some r) :
    cur + EPSILON ≤ r.1 := by
  rw [ls_iter] at h
  cases hs : single_scan w cur L R vs with
  | some r1 =>
    rw [hs] at h
    injection h with h2
    rw [← h2]
    exact single_scan_ge w vs cur L R r1 hs
  | none =>
    rw [hs] at h
    exact double_scan_ge w _ cur L R r h

theorem combinationsPairs_mem :
    ∀ (l : List ℕ) (p : ℕ × ℕ), p ∈ combinationsPairs l → p.1 ∈ l ∧ p.2 ∈ l := by
  intro l
  induction l with
  | nil => intro p h; exact absurd h (by rw [combinationsPairs]; exact List.not_mem_nil p)
  | cons x xs ih =>
    intro p h
    rw [combinationsPairs, List.mem_append] at h
    rcases h with h | h
    · obtain ⟨y, hy, hxy⟩ := List.mem_map.mp h
      rw [← hxy]
      exact ⟨List.mem_cons_self x xs, List.mem_cons_of_mem x hy⟩
    · obtain ⟨h1, h2⟩ := ih p h
      exact ⟨List.mem_cons_of_mem x h1, List.mem_cons_of_mem x h2⟩

theorem single_switch_sets_left (L R : Finset ℕ) (hdisj : Disjoint L R) (v : ℕ)
    (hv : v ∈ L) :
    L.erase v ∪ insert v R = L ∪ R ∧ Disjoint (L.erase v) (insert v R) := by
  constructor
  · ext x
    by_cases hx : x = v
    · subst hx
      simp [hv]
    · simp [Finset.mem_union, Finset.mem_erase, Finset.mem_insert, hx]
  · rw [Finset.disjoint_left]
    intro x hx
    obtain ⟨hxv, hxL⟩ := Finset.mem_erase.mp hx
    rw [Finset.mem_insert]
    push_neg
    exact ⟨hxv, Finset.disjoint_left.mp hdisj hxL⟩

theorem single_switch_sets_right (L R : Finset ℕ) (hdisj : Disjoint L R) (v : ℕ)
    (hvL : v ∉ L) (hv : v ∈ R) :
    insert v L ∪ R.erase v = L ∪ R ∧ Disjoint (insert v L) (R.erase v) := by
  constructor
  · ext x
    by_cases hx : x = v
    · subst hx
      simp [hv]
    · simp [Finset.mem_union, Finset.mem_erase, Finset.mem_insert, hx]
  · rw [Finset.disjoint_left]
    intro x hx
    rw [Finset.mem_insert] at hx
    rw [Finset.mem_erase]
    push_neg
    intro hxv
    rcases hx with rfl | hxL
    · exact absurd rfl hxv
    · exact Finset.disjoint_left.mp hdisj hxL

theorem double_switch_sets (L R : Finset ℕ) (hdisj : Disjoint L R) (v1 v2 : ℕ)
    (hv1 : v1 ∈ L) (hv2 : v2 ∈ R) :
    insert v2 (L.erase v1) ∪ insert v1 (R.erase v2) = L ∪ R ∧
      Disjoint (insert v2 (L.erase v1)) (insert v1 (R.erase v2)) := by
  have hne : v1 ≠ v2 := fun h => Finset.disjoint_left.mp hdisj hv1 (h ▸ hv2)
  have hv1R : v1 ∉ R := Finset.disjoint_left.mp hdisj hv1
  have hv2L : v2 ∉ L := Finset.disjoint_right.mp hdisj hv2
  constructor
  · ext x
    by_cases hx1 : x = v1
    · subst hx1
      simp [hv1]
    · by_cases hx2 : x = v2
      · subst hx2
        simp [hv2]
      · simp [Finset.mem_union, Finset.mem_erase, Finset.mem_insert, hx1, hx2]
  · rw [Finset.disjoint_left]
    intro x hx
    rw [Finset.mem_insert] at hx
    rw [Finset.mem_insert, Finset.mem_erase]
    push_neg
    rcases hx with rfl | hx
    · exact ⟨fun h => absurd h.symm hne, fun h => absurd rfl h⟩
    · obtain ⟨hxv1, hxL⟩ := Finset.mem_erase.mp hx
      exact ⟨hxv1, fun _ => Finset.disjoint_left.mp hdisj hxL⟩

theorem single_scan_spec (w : ℕ → ℕ → ℚ) (hsym : ∀ i j, w i j = w j i) :
    ∀ (l : List ℕ) (cur : ℚ) (L R : Finset ℕ), Disjoint L R → (∀ v ∈ l, v ∈ L ∪ R) →
      ∀ (r : ℚ × Finset ℕ × Finset ℕ), single_scan w cur L R l = some r →
        r.1 - cur = cutF w r.2.1 r.2.2 - cutF w L R ∧
        r.2.1 ∪ r.2.2 = L ∪ R ∧ Disjoint r.2.1 r.2.2 := by
  intro l
  induction l with
  | nil =>
    intro cur L R _ _ r h
    exact absurd h (by rw [single_scan]; exact Option.noConfusion)
  | cons v rest ih =>
    intro cur L R hdisj hl r h
    simp only [single_scan] at h
    by_cases hcond : EPSILON ≤ split_gain_for_single_switch cur L R v w - cur
    · rw [if_pos hcond] at h
      injection h with h2
      subst h2
      by_cases hvL : v ∈ L
      · rw [if_pos hvL]
        obtain ⟨hu, hd⟩ := single_switch_sets_left L R hdisj v hvL
        exact ⟨cutF_single_switch_left w hsym L R hdisj v hvL cur, hu, hd⟩
      · have hvR : v ∈ R := by
          rcases Finset.mem_union.mp (hl v (List.mem_cons_self v rest)) with h | h
          · exact absurd h hvL
          · exact h
        rw [if_neg hvL]
        obtain ⟨hu, hd⟩ := single_switch_sets_right L R hdisj v hvL hvR
        exact ⟨cutF_single_switch_right w hsym L R v hvL hvR cur, hu, hd⟩
    · rw [if_neg hcond] at h
      exact ih cur L R hdisj (fun x hx => hl x (List.mem_cons_of_mem v hx)) r h

theorem double_switch_swap (w : ℕ → ℕ → ℚ) (cur : ℚ) (L R : Finset ℕ) (v1 v2 : ℕ)
    (hv1L : v1 ∉ L) (hv2L : v2 ∈ L) :
    split_gain_for_double_switch cur L R v1 v2 w =
      split_gain_for_double_switch cur L R v2 v1 w := by
  rw [split_gain_for_double_switch, split_gain_for_double_switch, if_neg hv1L, if_pos hv2L]

theorem double_scan_spec (w : ℕ → ℕ → ℚ) (hsym : ∀ i j, w i j = w j i) :
    ∀ (pl : List (ℕ × ℕ)) (cur : ℚ) (L R : Finset ℕ), Disjoint L R →
      (∀ p ∈ pl, p.1 ∈ L ∪ R ∧ p.2 ∈ L ∪ R) →
      ∀ (r : ℚ × Finset ℕ × Finset ℕ), double_scan w cur L R pl = some r →
        r.1 - cur = cutF w r.2.1 r.2.2 - cutF w L R ∧
        r.2.1 ∪ r.2.2 = L ∪ R ∧ Disjoint r.2.1 r.2.2 := by
  intro pl
  induction pl with
  | nil =>
    intro cur L R _ _ r h
    exact absurd h (by rw [double_scan]; exact Option.noConfusion)
  | cons p rest ih =>
    intro cur L R hdisj hpl r h
    rcases p with ⟨v1, v2⟩
    simp only [double_scan] at h
    by_cases hside : (v1 ∈ L ∧ v2 ∈ L) ∨ (v1 ∈ R ∧ v2 ∈ R)
    · rw [if_pos hside] at h
      exact ih cur L R hdisj (fun q hq => hpl q (List.mem_cons_of_mem _ hq)) r h
    · rw [if_neg hside] at h
      by_cases hcond : EPSILON ≤ split_gain_for_double_switch cur L R v1 v2 w - cur
      · rw [if_pos hcond] at h
        injection h with h2
        subst h2
        obtain ⟨hm1, hm2⟩ := hpl (v1, v2) (List.mem_cons_self _ rest)
        by_cases hv1L : v1 ∈ L
        · have hv2R : v2 ∈ R := by
            rcases Finset.mem_union.mp hm2 with h | h
            · exact absurd ⟨hv1L, h⟩ (fun hc => hside (Or.inl hc))
            · exact h
          rw [if_pos hv1L]
          obtain ⟨hu, hd⟩ := double_switch_sets L R hdisj v1 v2 hv1L hv2R
          exact ⟨cutF_double_switch w hsym L R hdisj v1 v2 hv1L hv2R cur, hu, hd⟩
        · have hv1R : v1 ∈ R := by
            rcases Finset.mem_union.mp hm1 with h | h
            · exact absurd h hv1L
            · exact h
          have hv2L : v2 ∈ L := by
            rcases Finset.mem_union.mp hm2 with h | h
            · exact h
            · exact absurd ⟨hv1R, h⟩ (fun hc => hside (Or.inr hc))
          rw [if_neg hv1L]
          obtain ⟨hu, hd⟩ := double_switch_sets L R hdisj v2 v1 hv2L hv1R
          refine ⟨?_, hu, hd⟩
          rw [double_switch_swap w cur L R v1 v2 hv1L hv2L]
          exact cutF_double_switch w hsym L R hdisj v2 v1 hv2L hv1R cur
      · rw [if_neg hcond] at h
        exact ih cur L R hdisj (fun q hq => hpl q (List.mem_cons_of_mem _ hq)) r h

theorem ls_iter_spec (w : ℕ → ℕ → ℚ) (hsym : ∀ i j, w i j = w j i) (vs : List ℕ)
    (cur : ℚ) (L R : Finset ℕ) (hdisj : Disjoint L R) (hvs : ∀ v ∈ vs, v ∈ L ∪ R)
    (r : ℚ × Finset ℕ × Finset ℕ) (h : ls_iter w vs cur L R = some r) :
    cutF w L R + EPSILON ≤ cutF w r.2.1 r.2.2 ∧
      r.2.1 ∪ r.2.2 = L ∪ R ∧ Disjoint r.2.1 r.2.2 := by
  have hge := ls_iter_ge w vs cur L R r h
  rw [ls_iter] at h
  cases hs : single_scan w cur L R vs with
  | some r1 =>
    rw [hs] at h
    injection h with h2
    subst h2
    obtain ⟨hc, hu, hd⟩ := single_scan_spec w hsym vs cur L R hdisj hvs r1 hs
    exact ⟨by linarith, hu, hd⟩
  | none =>
    rw [hs] at h
    have hpl : ∀ p ∈ combinationsPairs vs, p.1 ∈ L ∪ R ∧ p.2 ∈ L ∪ R := by
      intro p hp
      obtain ⟨h1, h2⟩ := combinationsPairs_mem vs p hp
      exact ⟨hvs _ h1, hvs _ h2⟩
    obtain ⟨hc, hu, hd⟩ := double_scan_spec w hsym _ cur L R hdisj hpl r h
    exact ⟨by linarith, hu, hd⟩

theorem switch_loop_term (w : ℕ → ℕ → ℚ) (hsym : ∀ i j, w i j = w j i) (vs : List ℕ) :
    ∀ (n : ℕ) (cur : ℚ) (L R : Finset ℕ), Disjoint L R → (∀ v ∈ vs, v ∈ L ∪ R) →
      ((L ∪ R).powerset.filter fun S => cutF w L R < cutF w S ((L ∪ R) \ S)).card ≤ n →
      (switch_loop w vs (n + 1) cur L R).isSome := by
  intro n
  induction n with
  | zero =>
    intro cur L R hdisj hvs hM
    rw [switch_loop]
    cases hiter : ls_iter w vs cur L R with
    | none => simp
    | some r =>
      exfalso
      obtain ⟨hcut, huni, hd2⟩ := ls_iter_spec w hsym vs cur L R hdisj hvs r hiter
      have hR2 : (L ∪ R) \ r.2.1 = r.2.2 := by
        rw [← huni]
        exact Finset.union_sdiff_cancel_left hd2
      have hmem : r.2.1 ∈ (L ∪ R).powerset.filter
          (fun S => cutF w L R < cutF w S ((L ∪ R) \ S)) := by
        rw [Finset.mem_filter, Finset.mem_powerset, hR2]
        constructor
        · rw [← huni]
          exact Finset.subset_union_left
        · have heps : (0 : ℚ) < EPSILON := by rw [EPSILON]; norm_num
          linarith
      have := Finset.card_pos.mpr ⟨_, hmem⟩
      omega
  | succ n ih =>
    intro cur L R hdisj hvs hM
    rw [switch_loop]
    cases hiter : ls_iter w vs cur L R with
    | none => simp
    | some r =>
      obtain ⟨hcut, huni, hd2⟩ := ls_iter_spec w hsym vs cur L R hdisj hvs r hiter
      have hR2 : (L ∪ R) \ r.2.1 = r.2.2 := by
        rw [← huni]
        exact Finset.union_sdiff_cancel_left hd2
      have heps : (0 : ℚ) < EPSILON := by rw [EPSILON]; norm_num
      have hmem : r.2.1 ∈ (L ∪ R).powerset.filter
          (fun S => cutF w L R < cutF w S ((L ∪ R) \ S)) := by
        rw [Finset.mem_filter, Finset.mem_powerset, hR2]
        exact ⟨huni ▸ Finset.subset_union_left, by linarith⟩
      have hsub : (r.2.1 ∪ r.2.2).powerset.filter
            (fun S => cutF w r.2.1 r.2.2 < cutF w S ((r.2.1 ∪ r.2.2) \ S)) ⊆
          ((L ∪ R).powerset.filter
            (fun S => cutF w L R < cutF w S ((L ∪ R) \ S))).erase r.2.1 := by
        intro S hS
        rw [Finset.mem_filter, Finset.mem_powerset, huni] at hS
        rw [Finset.mem_erase, Finset.mem_filter, Finset.mem_powerset]
        refine ⟨?_, hS.1, by linarith [hS.2]⟩
        intro hSe
        rw [hSe, hR2] at hS
        exact absurd hS.2 (lt_irrefl _)
      have hcard : ((r.2.1 ∪ r.2.2).powerset.filter
          (fun S => cutF w r.2.1 r.2.2 < cutF w S ((r.2.1 ∪ r.2.2) \ S))).card ≤ n := by
        calc ((r.2.1 ∪ r.2.2).powerset.filter _).card
            ≤ (((L ∪ R).powerset.filter
                (fun S => cutF w L R < cutF w S ((L ∪ R) \ S))).erase r.2.1).card :=
              Finset.card_le_card hsub
          _ = ((L ∪ R).powerset.filter
                (fun S => cutF w L R < cutF w S ((L ∪ R) \ S))).card - 1 :=
              Finset.card_erase_of_mem hmem
          _ ≤ n := by omega
      exact ih r.1 r.2.1 r.2.2 hd2 (fun v hv => huni ▸ hvs v hv) hcard

theorem switch_loop_out (w : ℕ → ℕ → ℚ) (vs : List ℕ) (hsym : ∀ i j, w i j = w j i) :
    ∀ (fuel : ℕ) (cur : ℚ) (L R : Finset ℕ), Disjoint L R → (∀ v ∈ vs, v ∈ L ∪ R) →
      ∀ (r : ℚ × Finset ℕ × Finset ℕ), switch_loop w vs fuel cur L R = some r →
        ls_iter w vs r.1 r.2.1 r.2.2 = none ∧ r.2.1 ∪ r.2.2 = L ∪ R ∧
          Disjoint r.2.1 r.2.2 := by
  intro fuel
  induction fuel with
  | zero =>
    intro cur L R _ _ r h
    exact absurd h (by rw [switch_loop]; exact Option.noConfusion)
  | succ n ih =>
    intro cur L R hdisj hvs r h
    rw [switch_loop] at h
    cases hiter : ls_iter w vs cur L R with
    | none =>
      rw [hiter] at h
      injection h with h2
      subst h2
      exact ⟨hiter, rfl, hdisj⟩
    | some r1 =>
      rw [hiter] at h
      obtain ⟨hcut, huni, hd2⟩ := ls_iter_spec w hsym vs cur L R hdisj hvs r1 hiter
      obtain ⟨h1, h2, h3⟩ := ih r1.1 r1.2.1 r1.2.2 hd2 (fun v hv => huni ▸ hvs v hv) r h
      exact ⟨h1, h2.trans huni, h3⟩

/-- C4 (amended): on a symmetric weight matrix (the only kind
`_init_values_weights` produces) and a disjoint initial partition,
`_switch_while_increase` accepts only moves that raise the cut value by at
least `EPSILON`, terminates within some iteration budget, and re-run on its
own output returns it unchanged. -/
theorem switch_while_increase_symmetric_sound (w : ℕ → ℕ → ℚ) (cut : ℚ)
    (L R : Finset ℕ) (hsym : ∀ i j, w i j = w j i) (hdisj : Disjoint L R) :
    (∀ (vs : List ℕ) (cur : ℚ) (L' R' : Finset ℕ) (r : ℚ × Finset ℕ × Finset ℕ),
        ls_iter w vs cur L' R' = some r → cur + EPSILON ≤ r.1) ∧
    (∃ fuel r, switch_while_increase w fuel cut L R = some r) ∧
    (∀ fuel r, switch_while_increase w fuel cut L R = some r →
        ∀ fuel2, switch_while_increase w (fuel2 + 1) r.1 r.2.1 r.2.2 = some r) := by
  have hvs : ∀ v ∈ (L ∪ R).sort (· ≤ ·), v ∈ L ∪ R := fun v hv =>
    (Finset.mem_sort _).mp hv
  refine ⟨fun vs cur L' R' r h => ls_iter_ge w vs cur L' R' r h, ?_, ?_⟩
  · set M := ((L ∪ R).powerset.filter fun S => cutF w L R < cutF w S ((L ∪ R) \ S)).card
      with hMdef
    have hterm := switch_loop_term w hsym ((L ∪ R).sort (· ≤ ·)) M cut L R hdisj hvs
      (le_refl M)
    obtain ⟨r, hr⟩ := Option.isSome_iff_exists.mp hterm
    exact ⟨M + 1, r, hr⟩
  · intro fuel r h
    rw [switch_while_increase] at h
    obtain ⟨hnone, huni, hd2⟩ :=
      switch_loop_out w ((L ∪ R).sort (· ≤ ·)) hsym fuel cut L R hdisj hvs r h
    intro fuel2
    rw [switch_while_increase, huni, switch_loop, hnone]

/-- Closed witness for the amended C4 on a zero (symmetric) weight matrix. -/
theorem switch_while_increase_symmetric_sound_witness :
    (∀ (vs : List ℕ) (cur : ℚ) (L' R' : Finset ℕ) (r : ℚ × Finset ℕ × Finset ℕ),
        ls_iter (fun _ _ => 0) vs cur L' R' = some r → cur + EPSILON ≤ r.1) ∧
    (∃ fuel r, switch_while_increase (fun _ _ => 0) fuel 0 {0} {1} = some r) ∧
    (∀ fuel r, switch_while_increase (fun _ _ => 0) fuel 0 {0} {1} = some r →
        ∀ fuel2, switch_while_increase (fun _ _ => 0) (fuel2 + 1) r.1 r.2.1 r.2.2 = some r) :=
  switch_while_increase_symmetric_sound (fun _ _ => 0) 0 {0} {1}
    (fun _ _ => rfl) (by decide)

theorem cycle_iterA (cur : ℚ) :
    ls_iter cycleWeights [0, 1, 2] cur {0, 1} {2} = some (cur + 1, {0}, {1, 2}) := by
  have e1 : ({0, 1} : Finset ℕ).erase 0 = {1} := by decide
  have e2 : ({0, 1} : Finset ℕ).erase 1 = {0} := by decide
  have m0 : (0 : ℕ) ∈ ({0, 1} : Finset ℕ) := by decide
  have m1 : (1 : ℕ) ∈ ({0, 1} : Finset ℕ) := by decide
  have g0 : split_gain_for_single_switch cur {0, 1} {2} 0 cycleWeights = cur := by
    rw [split_gain_for_single_switch, if_pos m0, e1]
    norm_num [cycleWeights]
  have g1 : split_gain_for_single_switch cur {0, 1} {2} 1 cycleWeights = cur + 1 := by
    rw [split_gain_for_single_switch, if_pos m1, e2]
    norm_num [cycleWeights]
  rw [ls_iter]
  rw [single_scan, g0, if_neg (by rw [EPSILON]; norm_num)]
  rw [single_scan, g1, if_pos (by rw [EPSILON]; norm_num), if_pos m1]
  norm_num [e2]

theorem cycle_iterB (cur : ℚ) :
    ls_iter cycleWeights [0, 1, 2] cur {0} {1, 2} = some (cur + 1, {0, 2}, {1}) := by
  have e1 : ({1, 2} : Finset ℕ).erase 1 = {2} := by decide
  have e2 : ({1, 2} : Finset ℕ).erase 2 = {1} := by decide
  have m0 : (0 : ℕ) ∈ ({0} : Finset ℕ) := by decide
  have n1 : (1 : ℕ) ∉ ({0} : Finset ℕ) := by decide
  have n2 : (2 : ℕ) ∉ ({0} : Finset ℕ) := by decide
  have g0 : split_gain_for_single_switch cur {0} {1, 2} 0 cycleWeights = cur := by
    rw [split_gain_for_single_switch, if_pos m0]
    norm_num [cycleWeights]
  have g1 : split_gain_for_single_switch cur {0} {1, 2} 1 cycleWeights = cur - 1 := by
    rw [split_gain_for_single_switch, if_neg n1, e1]
    norm_num [cycleWeights]
  have g2 : split_gain_for_single_switch cur {0} {1, 2} 2 cycleWeights = cur + 1 := by
    rw [split_gain_for_single_switch, if_neg n2, e2]
    norm_num [cycleWeights]
    ring
  rw [ls_iter]
  rw [single_scan, g0, if_neg (by rw [EPSILON]; norm_num)]
  rw [single_scan, g1, if_neg (by rw [EPSILON]; norm_num)]
  rw [single_scan, g2, if_pos (by rw [EPSILON]; norm_num), if_neg n2]
  norm_num [e2]
  decide

theorem cycle_iterC (cur : ℚ) :
    ls_iter cycleWeights [0, 1, 2] cur {0, 2} {1} = some (cur + 1, {0, 1}, {2}) := by
  have e1 : ({0, 2} : Finset ℕ).erase 0 = {2} := by decide
  have e2 : ({0, 2} : Finset ℕ).erase 2 = {0} := by decide
  have e3 : ({1} : Finset ℕ).erase 1 = ∅ := by decide
  have m0 : (0 : ℕ) ∈ ({0, 2} : Finset ℕ) := by decide
  have n1 : (1 : ℕ) ∉ ({0, 2} : Finset ℕ) := by decide
  have m2 : (2 : ℕ) ∈ ({0, 2} : Finset ℕ) := by decide
  have g0 : split_gain_for_single_switch cur {0, 2} {1} 0 cycleWeights = cur := by
    rw [split_gain_for_single_switch, if_pos m0, e1]
    norm_num [cycleWeights]
  have g1 : split_gain_for_single_switch cur {0, 2} {1} 1 cycleWeights = cur - 1 := by
    rw [split_gain_for_single_switch, if_neg n1, e3]
    norm_num [cycleWeights]
  have g2 : split_gain_for_single_switch cur {0, 2} {1} 2 cycleWeights = cur - 1 := by
    rw [split_gain_for_single_switch, if_pos m2, e2]
    norm_num [cycleWeights]
    ring
  have hsingle : single_scan cycleWeights cur {0, 2} {1} [0, 1, 2] = none := by
    rw [single_scan, g0, if_neg (by rw [EPSILON]; norm_num)]
    rw [single_scan, g1, if_neg (by rw [EPSILON]; norm_num)]
    rw [single_scan, g2, if_neg (by rw [EPSILON]; norm_num)]
    rfl
  have d01 : split_gain_for_double_switch cur {0, 2} {1} 0 1 cycleWeights = cur := by
    rw [split_gain_for_double_switch, if_pos m0, e1, e3]
    norm_num [cycleWeights]
  have d12 : split_gain_for_double_switch cur {0, 2} {1} 1 2 cycleWeights = cur + 1 := by
    rw [split_gain_for_double_switch, if_neg n1, e2, e3]
    norm_num [cycleWeights]
  rw [ls_iter, hsingle]
  show double_scan cycleWeights cur {0, 2} {1} [(0, 1), (0, 2), (1, 2)] = _
  rw [double_scan, if_neg (by decide), d01, if_neg (by rw [EPSILON]; norm_num)]
  rw [double_scan, if_pos (by decide)]
  rw [double_scan, if_neg (by decide), d12, if_pos (by rw [EPSILON]; norm_num), if_neg n1]
  norm_num [e2, e3]
  decide

theorem cycle_loop_runs_forever : ∀ (fuel : ℕ) (cur : ℚ),
    switch_loop cycleWeights [0, 1, 2] fuel cur {0, 1} {2} = none ∧
    switch_loop cycleWeights [0, 1, 2] fuel cur {0} {1, 2} = none ∧
    switch_loop cycleWeights [0, 1, 2] fuel cur {0, 2} {1} = none := by
  intro fuel
  induction fuel with
  | zero => intro cur; exact ⟨rfl, rfl, rfl⟩
  | succ n ih =>
    intro cur
    refine ⟨?_, ?_, ?_⟩
    · rw [switch_loop, cycle_iterA cur]
      exact (ih (cur + 1)).2.1
    · rw [switch_loop, cycle_iterB cur]
      exact (ih (cur + 1)).2.2
    · rw [switch_loop, cycle_iterC cur]
      exact (ih (cur + 1)).1

/-- C4 counterexample: on the asymmetric three-value weight matrix
`cycleWeights`, `_switch_while_increase` started from the partition
`{0, 1} | {2}` cycles forever (each accepted move raises the bookkept cut
value, so the `while found_improvement` loop never exits): the local search
does not terminate for every finite weight matrix. -/
theorem switch_while_increase_nontermination_counterexample :
    ¬ switch_terminates_on cycleWeights 0 {0, 1} {2} := by
  rintro ⟨fuel, hsome⟩
  have hsort : (({0, 1} ∪ {2} : Finset ℕ)).sort (· ≤ ·) = [0, 1, 2] := by
    have h1 : ({0, 1} ∪ {2} : Finset ℕ) = Finset.range 3 := by decide
    rw [h1, Finset.sort_range]
    rfl
  rw [switch_while_increase, hsort] at hsome
  rw [(cycle_loop_runs_forever fuel 0).1] at hsome
  simp at hsome

end LSSquaredGini
end Criteria

namespace Criteria
namespace GWSquaredGini

/-- C3 (amended): `GWSquaredGini._generate_best_split` returns the
randomized-rounding partition exactly as rounded — mapped to original values
with its cut value — and in particular the returned value sets depend only on
the rounding, not on the contingency data, which no weight-driven local-search
refinement would allow. -/
theorem gw_returns_rounded_partition_unrefined (nto : List ℕ)
    (nct nct' : ℕ → ℕ → ℕ) (nvns nvns' : ℕ → ℕ) (ncl ncl' : ℕ) (rnd : ℕ → Bool) :
    (generate_best_split nto nct nvns ncl rnd).2 =
      ((((Finset.range nto.length).filter fun v => rnd v = true).image
          fun v => nto.getD v 0),
       (((Finset.range nto.length).filter fun v => ¬rnd v = true).image
          fun v => nto.getD v 0)) ∧
    (generate_best_split nto nct nvns ncl rnd).2 =
      (generate_best_split nto nct' nvns' ncl' rnd).2 := by
  exact ⟨rfl, rfl⟩

/-- C3 counterexample: on a concrete three-value table, GW hands back the
rounded partition `{0, 1} | {2}` with cut value 1 even though the deterministic
local search (`_switch_while_increase`'s scan) has an improving single-switch
move on it — the rounded partition is returned unrefined. -/
theorem gw_rounded_partition_not_locally_refined_counterexample :
    (generate_best_split [0, 1, 2]
        (fun v c => if (v = 0 ∨ v = 2) ∧ c = 0 then 1 else if v = 1 ∧ c = 1 then 1 else 0)
        (fun _ => 1) 2 (fun v => decide (v ≤ 1))) =
      ((1 : ℚ), {0, 1}, {2}) ∧
    EPSILON ≤ LSSquaredGini.split_gain_for_single_switch 1 {0, 1} {2} 0
        (gw_weights
          (fun v c => if (v = 0 ∨ v = 2) ∧ c = 0 then 1 else if v = 1 ∧ c = 1 then 1 else 0)
          (fun _ => 1) 2) - 1 ∧
    (LSSquaredGini.ls_iter
        (gw_weights
          (fun v c => if (v = 0 ∨ v = 2) ∧ c = 0 then 1 else if v = 1 ∧ c = 1 then 1 else 0)
          (fun _ => 1) 2)
        [0, 1, 2] 1 {0, 1} {2}).isSome := by
  set ct := fun v c => if (v = 0 ∨ v = 2) ∧ c = 0 then 1 else if v = 1 ∧ c = 1 then 1 else 0
    with hct
  set w := gw_weights ct (fun _ => 1) 2 with hw
  have hw10 : w 1 0 = 1 := by
    rw [hw, gw_weights, if_neg (by norm_num), hct]
    rw [Finset.sum_range_succ, Finset.sum_range_one]
    norm_num
  have hw20 : w 2 0 = 0 := by
    rw [hw, gw_weights, if_neg (by norm_num), hct]
    rw [Finset.sum_range_succ, Finset.sum_range_one]
    norm_num
  have hw02 : w 0 2 = 0 := by
    rw [hw, gw_weights, if_neg (by norm_num), hct]
    rw [Finset.sum_range_succ, Finset.sum_range_one]
    norm_num
  have hw12 : w 1 2 = 1 := by
    rw [hw, gw_weights, if_neg (by norm_num), hct]
    rw [Finset.sum_range_succ, Finset.sum_range_one]
    norm_num
  have hfl : ((Finset.range 3).filter fun v => (decide (v ≤ 1)) = true) = {0, 1} := by decide
  have hfr : ((Finset.range 3).filter fun v => ¬(decide (v ≤ 1)) = true) = {2} := by decide
  have e1 : ({0, 1} : Finset ℕ).erase 0 = {1} := by decide
  have m0 : (0 : ℕ) ∈ ({0, 1} : Finset ℕ) := by decide
  have hcut : LSSquaredGini.cutF w {0, 1} {2} = 1 := by
    rw [LSSquaredGini.cutF]
    rw [show ({0, 1} : Finset ℕ) = insert 0 {1} from rfl]
    rw [Finset.sum_insert (by decide), Finset.sum_singleton, Finset.sum_singleton,
      Finset.sum_singleton, hw02, hw12]
    norm_num
  have hg0 : LSSquaredGini.split_gain_for_single_switch 1 {0, 1} {2} 0 w = 2 := by
    rw [LSSquaredGini.split_gain_for_single_switch, if_pos m0, e1]
    rw [Finset.sum_singleton, Finset.sum_singleton, hw10, hw20]
    norm_num
  refine ⟨?_, ?_, ?_⟩
  · simp only [generate_best_split]
    rw [show ([0, 1, 2] : List ℕ).length = 3 from rfl]
    rw [hfl, hfr, hcut]
    refine Prod.ext rfl (Prod.ext ?_ ?_) <;> decide
  · rw [hg0, EPSILON]
    norm_num
  · rw [LSSquaredGini.ls_iter]
    have hss : LSSquaredGini.single_scan w 1 {0, 1} {2} [0, 1, 2] =
        some (2, ({0, 1} : Finset ℕ).erase 0, insert 0 {2}) := by
      rw [LSSquaredGini.single_scan]
      simp only [hg0]
      rw [if_pos (by rw [EPSILON]; norm_num), if_pos m0]
    rw [hss]
    rfl

end GWSquaredGini
end Criteria

namespace Criteria
namespace Twoing

theorem two_class_trick_node9_first :
    two_class_trick (1/2) [10, 10] [0, 1] vns9 (twoing_ct ct9 vns9 {0} {1}) 20 =
      (((1/2 : ℚ) : WithBot ℚ), {0}, {1}) := by
  norm_num [two_class_trick, get_non_empty_class_indices, get_non_empty_go,
    value_number_ratio, List.insertionSort, List.orderedInsert, ratioLe,
    twoing_ct, ct9, vns9, sweep_step, two_class_trick_children_gini]
  decide

theorem two_class_trick_node9_second :
    two_class_trick (1/2) [10, 10] [0, 1] vns9 (twoing_ct ct9 vns9 {1} {0}) 20 =
      (((1/2 : ℚ) : WithBot ℚ), {1}, {0}) := by
  norm_num [two_class_trick, get_non_empty_class_indices, get_non_empty_go,
    value_number_ratio, List.insertionSort, List.orderedInsert, ratioLe,
    twoing_ct, ct9, vns9, sweep_step, two_class_trick_children_gini]

theorem twoing_nominal_split_node9 :
    twoing_nominal_split node9 0 =
      { attrib_index := some 0,
        splits_values := [{some (0 : ℚ)}, {some (1 : ℚ)}],
        criterion_value := ((1/4 : ℚ) : WithBot ℚ) } := by
  have hgen : generate_twoing [10, 10] = [({0}, {1}), ({1}, {0})] := by decide
  have hvs : get_values_seen 2 vns9 = [0, 1] := by decide
  have hscn1 : twoing_superclass_nums ct9 vns9 2 {0} {1} = [10, 10] := by decide
  have hscn2 : twoing_superclass_nums ct9 vns9 2 {1} {0} = [10, 10] := by decide
  have hgini : calculate_gini_index 20 [10, 10] = (1/2 : ℚ) := by
    norm_num [calculate_gini_index]
  have hrow0 : add_row (List.replicate 2 0) (ct9 0) = [10, 0] := by decide
  have hrow1 : add_row (List.replicate 2 0) (ct9 1) = [0, 10] := by decide
  have habs1 : |((10 : ℚ)/10 - 0/10)| = 1 := by
    rw [abs_of_nonneg (by norm_num)]
    norm_num
  have habs2 : |((0 : ℚ)/10 - 10/10)| = 1 := by
    rw [abs_of_nonpos (by norm_num)]
    norm_num
  have htv : get_twoing_value [10, 0] [0, 10] 10 10 = (1/4 : ℚ) := by
    simp only [get_twoing_value, List.zip, List.zipWith, List.foldl]
    norm_num [habs1, habs2]
  simp only [twoing_nominal_split, node9, List.length_range]
  rw [hgen, hvs]
  simp only [List.foldl]
  rw [hscn1, hscn2, hgini, two_class_trick_node9_first, two_class_trick_node9_second]
  simp only [WithBot.bot_lt_coe, if_true, WithBot.coe_lt_coe]
  rw [if_neg (by norm_num)]
  norm_num [hrow0, hrow1, vns9, htv, Finset.image_singleton,
    Finset.mem_singleton]

theorem select_node9 :
    select_best_attribute_and_split node9 =
      { attrib_index := some 0,
        splits_values := [{some (0 : ℚ)}, {some (1 : ℚ)}],
        criterion_value := ((1/4 : ℚ) : WithBot ℚ) } := by
  have hsplits : best_splits_per_attrib node9 = [twoing_nominal_split node9 0] := rfl
  rw [select_best_attribute_and_split, hsplits, twoing_nominal_split_node9]
  rfl

/-- C9 counterexample: on the spec's end-to-end node (binary attribute,
contingency table `[[10, 0], [0, 10]]`), the Twoing criterion — one of the
cited Gini-based criteria — returns criterion value `1/4`, not `1.0`, and even
the plain Gini gain of the returned split `{0} | {1}` is `1/2`, not `1.0`. -/
theorem node9_gain_not_one_counterexample :
    (select_best_attribute_and_split node9).criterion_value = ((1/4 : ℚ) : WithBot ℚ) ∧
    ((1/4 : ℚ) : WithBot ℚ) ≠ ((1 : ℚ) : WithBot ℚ) ∧
    calculate_gini_index 20 [10, 10] -
        two_class_trick_children_gini 10 0 0 10 10 10 = (1/2 : ℚ) ∧
    (1/2 : ℚ) ≠ 1 := by
  refine ⟨by rw [select_node9], ?_, ?_, by norm_num⟩
  · rw [ne_eq, WithBot.coe_inj]
    norm_num
  · norm_num [calculate_gini_index, two_class_trick_children_gini]

/-- C9 (amended): on the end-to-end node the Twoing criterion returns the
split `{0} | {1}` with criterion value `1/4` (the Twoing value of the split,
i.e. half of the split's Gini gain `1/2` — perfect separation drops the parent
Gini index `1/2` to children impurity `0`). -/
theorem node9_twoing_split_and_values :
    select_best_attribute_and_split node9 =
      { attrib_index := some 0,
        splits_values := [{some (0 : ℚ)}, {some (1 : ℚ)}],
        criterion_value := ((1/4 : ℚ) : WithBot ℚ) } ∧
    calculate_gini_index 20 [10, 10] -
        two_class_trick_children_gini 10 0 0 10 10 10 = (1/2 : ℚ) ∧
    get_twoing_value [10, 0] [0, 10] 10 10 = (1/4 : ℚ) := by
  have habs1 : |((10 : ℚ)/10 - 0/10)| = 1 := by
    rw [abs_of_nonneg (by norm_num)]
    norm_num
  have habs2 : |((0 : ℚ)/10 - 10/10)| = 1 := by
    rw [abs_of_nonpos (by norm_num)]
    norm_num
  refine ⟨select_node9, ?_, ?_⟩
  · norm_num [calculate_gini_index, two_class_trick_children_gini]
  · simp only [get_twoing_value, List.zip, List.zipWith, List.foldl]
    norm_num [habs1, habs2]

end Twoing
end Criteria
